import Mathlib

/-!
Verification of the llm_structured lenient-parse / schema-validate /
auto-repair / incremental-stream pipeline.

The Python package in this repository is a thin wrapper over a native
extension (llm_structured._native) whose source is not part of the
repository; the pipeline itself (CandidateExtractor, LenientParser,
SchemaValidator, RepairEngine, StreamEngine) is therefore modelled here
from the specification, while the Python wrapper functions in
llm_structured/__init__.py are embedded directly from their source.
-/

/-- Exact rational numbers as integer fraction pairs with positive
denominator (maintained by construction), used to model Float values
exactly.  Operations are pure integer arithmetic, so they are both
executable and kernel-reducible; fractions are not reduced, and semantic
comparisons use cross multiplication. -/
structure QQ where
  num : Int
  den : Int
deriving DecidableEq, Repr

/-- Embed an integer. -/
def QQ.ofInt (n : Int) : QQ := ⟨n, 1⟩

/-- Sum of two fractions. -/
def qadd (a b : QQ) : QQ := ⟨a.num * b.den + b.num * a.den, a.den * b.den⟩

/-- Difference of two fractions. -/
def qsub (a b : QQ) : QQ := ⟨a.num * b.den - b.num * a.den, a.den * b.den⟩

/-- Product of two fractions. -/
def qmul (a b : QQ) : QQ := ⟨a.num * b.num, a.den * b.den⟩

/-- Quotient of two fractions (sign moved to the numerator). -/
def qdiv (a b : QQ) : QQ :=
  let n := a.num * b.den
  let d := a.den * b.num
  if d < 0 then ⟨-n, -d⟩ else ⟨n, d⟩

/-- Absolute value. -/
def qabs (a : QQ) : QQ := ⟨if a.num < 0 then -a.num else a.num, a.den⟩

/-- Order comparison by cross multiplication. -/
def qle (a b : QQ) : Bool := decide (a.num * b.den ≤ b.num * a.den)

/-- Strict order comparison by cross multiplication. -/
def qlt (a b : QQ) : Bool := decide (a.num * b.den < b.num * a.den)

/-- Semantic equality by cross multiplication. -/
def qeqv (a b : QQ) : Bool := decide (a.num * b.den = b.num * a.den)

/-- Whether the fraction denotes a whole number. -/
def qIsInt (a : QQ) : Bool := decide (a.num % a.den = 0)

/-- Floor of the fraction (denominator positive). -/
def qfloor (a : QQ) : Int := Int.fdiv a.num a.den

/-- Value: tagged union of Null, Bool, Int (exact), Float, String, Array,
Object (ordered association list of string key to value, first-seen key
order preserved).  Floats are modelled as exact rationals; a binary64
literal is represented by the exact rational value of that double. -/
inductive Value where
  | vnull : Value
  | vbool (b : Bool) : Value
  | vint (n : Int) : Value
  | vfloat (q : QQ) : Value
  | vstr (s : String) : Value
  | varr (elems : List Value) : Value
  | vobj (fields : List (String × Value)) : Value
deriving Repr

mutual
/-- Structural boolean equality on values (needed because the nested
inductive does not get a derived decidable equality). -/
def Value.beq : Value → Value → Bool
  | .vnull, .vnull => true
  | .vbool a, .vbool b => a == b
  | .vint a, .vint b => a == b
  | .vfloat a, .vfloat b => a == b
  | .vstr a, .vstr b => a == b
  | .varr xs, .varr ys => Value.beqList xs ys
  | .vobj xs, .vobj ys => Value.beqFields xs ys
  | _, _ => false

/-- Boolean equality on lists of values. -/
def Value.beqList : List Value → List Value → Bool
  | [], [] => true
  | x :: xs, y :: ys => Value.beq x y && Value.beqList xs ys
  | _, _ => false

/-- Boolean equality on object field lists. -/
def Value.beqFields : List (String × Value) → List (String × Value) → Bool
  | [], [] => true
  | (k, x) :: xs, (l, y) :: ys => k == l && Value.beq x y && Value.beqFields xs ys
  | _, _ => false
end

instance : BEq Value := ⟨Value.beq⟩

mutual
theorem Value.beq_iff : ∀ a b : Value, Value.beq a b = true ↔ a = b
  | .vnull, b => by cases b <;> simp [Value.beq]
  | .vbool a, b => by cases b <;> simp [Value.beq]
  | .vint a, b => by cases b <;> simp [Value.beq]
  | .vfloat a, b => by cases b <;> simp [Value.beq]
  | .vstr a, b => by cases b <;> simp [Value.beq]
  | .varr xs, b => by
      cases b <;> simp [Value.beq]
      exact Value.beqList_iff xs _
  | .vobj xs, b => by
      cases b <;> simp [Value.beq]
      exact Value.beqFields_iff xs _

theorem Value.beqList_iff : ∀ xs ys : List Value, Value.beqList xs ys = true ↔ xs = ys
  | [], [] => by simp [Value.beqList]
  | [], _ :: _ => by simp [Value.beqList]
  | _ :: _, [] => by simp [Value.beqList]
  | x :: xs, y :: ys => by
      simp [Value.beqList, Value.beq_iff x y, Value.beqList_iff xs ys]

theorem Value.beqFields_iff :
    ∀ xs ys : List (String × Value), Value.beqFields xs ys = true ↔ xs = ys
  | [], [] => by simp [Value.beqFields]
  | [], _ :: _ => by simp [Value.beqFields]
  | _ :: _, [] => by simp [Value.beqFields]
  | (k, x) :: xs, (l, y) :: ys => by
      simp [Value.beqFields, Value.beq_iff x y, Value.beqFields_iff xs ys, Prod.ext_iff]
end

instance : DecidableEq Value := fun a b =>
  decidable_of_iff (Value.beq a b = true) (Value.beq_iff a b)

instance {ε α : Type} [DecidableEq ε] [DecidableEq α] : DecidableEq (Except ε α) := fun x y =>
  match x, y with
  | .ok a, .ok b => if h : a = b then isTrue (by rw [h]) else isFalse (by simp [h])
  | .error a, .error b => if h : a = b then isTrue (by rw [h]) else isFalse (by simp [h])
  | .ok _, .error _ => isFalse (by simp)
  | .error _, .ok _ => isFalse (by simp)

/-- Limit payload carried by stream-limit errors:
limit = \x7bkind, max\x7d. -/
structure LimitInfo where
  kind : String
  max : Nat
deriving DecidableEq, Repr

/-- ValidationError / ParseError shape: path (root "$"), kind, message;
stream-limit errors additionally carry a limit payload. -/
structure VError where
  kind : String
  path : String
  message : String
  limit : Option LimitInfo := none
deriving DecidableEq, Repr

/-- Duplicate-object-key policy of the lenient parser. -/
inductive DupPolicy where
  | firstWins : DupPolicy
  | lastWins : DupPolicy
  | dkError : DupPolicy
deriving DecidableEq, Repr

/-- Metadata describing which relaxations actually fired during a parse. -/
structure Metadata where
  extractedFromFence : Bool
  replacedPythonLiterals : Bool
  droppedTrailingCommas : Bool
  duplicateKeyCount : Nat
  duplicateKeyPolicy : DupPolicy
deriving DecidableEq, Repr

/-- RepairConfig of the lenient parser (parse-time relaxations). -/
structure RepairConfig where
  allowSingleQuotes : Bool := true
  allowPythonLiterals : Bool := true
  dropTrailingCommas : Bool := true
  duplicateKeyPolicy : DupPolicy := .firstWins
deriving DecidableEq, Repr

/-- The fully strict parse config: every relaxation disabled (the
duplicate-key policy, which is not a relaxation flag, stays firstWins as
in the default config). -/
def strictParseConfig : RepairConfig :=
  { allowSingleQuotes := false, allowPythonLiterals := false,
    dropTrailingCommas := false }

/-- Flags accumulated while parsing: which relaxations actually fired. -/
structure PFlags where
  python : Bool := false
  trailing : Bool := false
  dups : Nat := 0
deriving DecidableEq, Repr

/-- Modelled from the spec: duplicate-key resolution of the native
LenientParser (missing from src/).  Overwrite the value stored for key
k, keeping its original position. -/
def setKey (fields : List (String × Value)) (k : String) (v : Value) :
    List (String × Value) :=
  fields.map (fun kv => if kv.1 = k then (kv.1, v) else kv)

/-- Modelled from the spec: one step of duplicate-key resolution.  On a
repeated key, firstWins keeps the stored value, lastWins overwrites it in
place, and the error policy fails with a ParseError whose path points at
the first occurrence of the repeated key.  The counter counts only repeat
occurrences beyond the first. -/
def buildObjectStep (policy : DupPolicy) (path : String)
    (acc : List (String × Value) × Nat) (kv : String × Value) :
    Except VError (List (String × Value) × Nat) :=
  if (acc.1.lookup kv.1).isSome then
    match policy with
    | .firstWins => .ok (acc.1, acc.2 + 1)
    | .lastWins => .ok (setKey acc.1 kv.1 kv.2, acc.2 + 1)
    | .dkError =>
        .error { kind := "parse", path := path ++ "." ++ kv.1,
                 message := "duplicate key " ++ kv.1 }
  else .ok (acc.1 ++ [kv], acc.2)

/-- Modelled from the spec: resolve the parsed sequence of key/value
pairs of one object under the duplicate-key policy, returning the
resulting field list (first-seen key order) and the duplicate count. -/
def buildObject (policy : DupPolicy) (path : String)
    (pairs : List (String × Value)) :
    Except VError (List (String × Value) × Nat) :=
  pairs.foldlM (buildObjectStep policy path) ([], 0)

/-- Brace characters (written via code points throughout this file). -/
def lbrace : Char := '\x7b'

/-- Closing brace character. -/
def rbrace : Char := '\x7d'

/-- Parse-error constructor: ParseError has kind "parse". -/
def perr (path msg : String) : VError :=
  { kind := "parse", path := path, message := msg }

/-- Whitespace recognizer of the lenient grammar. -/
def isWs (c : Char) : Bool :=
  c = ' ' || c = '\n' || c = '\t' || c = '\r'

/-- Skip leading whitespace. -/
def skipWs (cs : List Char) : List Char := cs.dropWhile isWs

/-- Map the character after a backslash to the escaped character. -/
def unescapeChar (c : Char) : Char :=
  if c = 'n' then '\n'
  else if c = 't' then '\t'
  else if c = 'r' then '\r'
  else if c = 'b' then Char.ofNat 8
  else if c = 'f' then Char.ofNat 12
  else c

/-- Modelled from the spec: string-literal scanning of the native
LenientParser (missing from src/).  The opening quote has been consumed;
scan until the matching quote, resolving backslash escapes. -/
def parseStringLit (q : Char) : Nat → List Char → String →
    Except VError (String × List Char)
  | 0, _, _ => .error (perr "$" "string literal: out of fuel")
  | _ + 1, [], _ => .error (perr "$" "unterminated string literal")
  | fuel + 1, c :: cs, acc =>
    if c = q then .ok (acc, cs)
    else if c = '\\' then
      match cs with
      | [] => .error (perr "$" "unterminated escape")
      | e :: cs2 => parseStringLit q fuel cs2 (acc.push (unescapeChar e))
    else parseStringLit q fuel cs (acc.push c)

/-- Numeric value of a digit run. -/
def digitsVal (ds : List Char) : Nat :=
  ds.foldl (fun a c => a * 10 + (c.toNat - 48)) 0

/-- Modelled from the spec: number scanning of the native LenientParser
(missing from src/).  Integers and floats are distinguished lexically:
a fractional part or an exponent selects Float; otherwise the token is an
exact integer. -/
def parseNumber (cs0 : List Char) (path : String) :
    Except VError (Value × List Char) :=
  let (neg, cs1) :=
    match cs0 with
    | c :: rest => if c = '-' then (true, rest) else (false, cs0)
    | [] => (false, cs0)
  let (ds, cs2) := cs1.span Char.isDigit
  if ds.isEmpty then .error (perr path "malformed number") else
  let (fds, cs3, hasFrac) :=
    match cs2 with
    | c :: rest =>
      if c = '.' then
        let (fs, rest2) := rest.span Char.isDigit
        (fs, rest2, true)
      else ([], cs2, false)
    | [] => ([], cs2, false)
  if hasFrac ∧ fds.isEmpty then .error (perr path "malformed number") else
  let (eneg, eds, cs4, hasExp) :=
    match cs3 with
    | c :: rest =>
      if c = 'e' ∨ c = 'E' then
        match rest with
        | s :: rest2 =>
          if s = '-' then
            let (es, rest3) := rest2.span Char.isDigit
            (true, es, rest3, true)
          else if s = '+' then
            let (es, rest3) := rest2.span Char.isDigit
            (false, es, rest3, true)
          else
            let (es, rest3) := rest.span Char.isDigit
            (false, es, rest3, true)
        | [] => (false, [], rest, true)
      else (false, [], cs3, false)
    | [] => (false, [], cs3, false)
  if hasExp ∧ eds.isEmpty then .error (perr path "malformed number") else
  let sign : Int := if neg then -1 else 1
  if ¬ hasFrac ∧ ¬ hasExp then
    .ok (.vint (sign * digitsVal ds), cs2)
  else
    let mant : Int := sign * (digitsVal ds * 10 ^ fds.length + digitsVal fds)
    let q : QQ :=
      if hasExp then
        if eneg then ⟨mant, Int.ofNat (10 ^ fds.length * 10 ^ digitsVal eds)⟩
        else ⟨mant * Int.ofNat (10 ^ digitsVal eds), Int.ofNat (10 ^ fds.length)⟩
      else ⟨mant, Int.ofNat (10 ^ fds.length)⟩
    .ok (.vfloat q, cs4)

/-- Strip a literal keyword from the front of the input. -/
def stripLit : List Char → List Char → Option (List Char)
  | [], cs => some cs
  | _ :: _, [] => none
  | l :: ls, c :: cs => if c = l then stripLit ls cs else none

mutual
/-- Modelled from the spec: the native LenientParser (missing from src/).
Parse one value from the input.  Relaxations: single-quoted strings (if
enabled), Python literal tokens True/False/None (if enabled), trailing
commas before a closing bracket/brace (dropped if enabled); each sets its
flag only when it actually fires.  Grammar violations not covered by an
enabled relaxation fail with a ParseError (kind "parse"). -/
def parseVal (cfg : RepairConfig) : Nat → List Char → String → PFlags →
    Except VError (Value × List Char × PFlags)
  | 0, _, path, _ => .error (perr path "out of fuel")
  | fuel + 1, cs0, path, fl =>
    match skipWs cs0 with
    | [] => .error (perr path "unexpected end of input")
    | c :: rest =>
      if c = lbrace then parseObjLoop cfg fuel rest path fl [] true
      else if c = '[' then parseArrLoop cfg fuel rest path fl [] 0 true
      else if c = '"' then
        match parseStringLit '"' (fuel + 1) rest "" with
        | .ok (s, cs2) => .ok (.vstr s, cs2, fl)
        | .error e => .error e
      else if c = '\'' then
        if cfg.allowSingleQuotes then
          match parseStringLit '\'' (fuel + 1) rest "" with
          | .ok (s, cs2) => .ok (.vstr s, cs2, { fl with python := true })
          | .error e => .error e
        else .error (perr path "single-quoted string not allowed")
      else if c = '-' ∨ c.isDigit then
        match parseNumber (c :: rest) path with
        | .ok (v, cs2) => .ok (v, cs2, fl)
        | .error e => .error e
      else
        match stripLit [ 't', 'r', 'u', 'e' ] (c :: rest) with
        | some cs2 => .ok (.vbool true, cs2, fl)
        | none =>
        match stripLit [ 'f', 'a', 'l', 's', 'e' ] (c :: rest) with
        | some cs2 => .ok (.vbool false, cs2, fl)
        | none =>
        match stripLit [ 'n', 'u', 'l', 'l' ] (c :: rest) with
        | some cs2 => .ok (.vnull, cs2, fl)
        | none =>
        match stripLit [ 'T', 'r', 'u', 'e' ] (c :: rest) with
        | some cs2 =>
          if cfg.allowPythonLiterals then
            .ok (.vbool true, cs2, { fl with python := true })
          else .error (perr path "literal True not allowed")
        | none =>
        match stripLit [ 'F', 'a', 'l', 's', 'e' ] (c :: rest) with
        | some cs2 =>
          if cfg.allowPythonLiterals then
            .ok (.vbool false, cs2, { fl with python := true })
          else .error (perr path "literal False not allowed")
        | none =>
        match stripLit [ 'N', 'o', 'n', 'e' ] (c :: rest) with
        | some cs2 =>
          if cfg.allowPythonLiterals then
            .ok (.vnull, cs2, { fl with python := true })
          else .error (perr path "literal None not allowed")
        | none => .error (perr path "unexpected character")

/-- Modelled from the spec: object member loop of the native
LenientParser (missing from src/).  On close, duplicate keys are resolved
per the configured policy. -/
def parseObjLoop (cfg : RepairConfig) : Nat → List Char → String → PFlags →
    List (String × Value) → Bool →
    Except VError (Value × List Char × PFlags)
  | 0, _, path, _, _, _ => .error (perr path "out of fuel")
  | fuel + 1, cs0, path, fl, pairs, isFirst =>
    match skipWs cs0 with
    | [] => .error (perr path "unterminated object")
    | c :: rest =>
      if c = rbrace ∧ isFirst then
        match buildObject cfg.duplicateKeyPolicy path pairs with
        | .ok (fields, n) => .ok (.vobj fields, rest, { fl with dups := fl.dups + n })
        | .error e => .error e
      else
        -- parse one key string
        let keyRes : Except VError (String × List Char × PFlags) :=
          if c = '"' then
            match parseStringLit '"' (fuel + 1) rest "" with
            | .ok (s, cs2) => .ok (s, cs2, fl)
            | .error e => .error e
          else if c = '\'' ∧ cfg.allowSingleQuotes then
            match parseStringLit '\'' (fuel + 1) rest "" with
            | .ok (s, cs2) => .ok (s, cs2, { fl with python := true })
            | .error e => .error e
          else .error (perr path "expected object key")
        match keyRes with
        | .error e => .error e
        | .ok (key, cs2, fl2) =>
          match skipWs cs2 with
          | [] => .error (perr path "expected colon after key")
          | d :: cs3 =>
            if d = ':' then
              match parseVal cfg fuel cs3 (path ++ "." ++ key) fl2 with
              | .error e => .error e
              | .ok (v, cs4, fl3) =>
                let pairs2 := pairs ++ [(key, v)]
                match skipWs cs4 with
                | [] => .error (perr path "unterminated object")
                | c2 :: cs5 =>
                  if c2 = ',' then
                    match skipWs cs5 with
                    | c3 :: cs6 =>
                      if c3 = rbrace then
                        if cfg.dropTrailingCommas then
                          match buildObject cfg.duplicateKeyPolicy path pairs2 with
                          | .ok (fields, n) =>
                              .ok (.vobj fields, cs6,
                                   { fl3 with trailing := true, dups := fl3.dups + n })
                          | .error e => .error e
                        else .error (perr path "trailing comma not allowed")
                      else parseObjLoop cfg fuel (c3 :: cs6) path fl3 pairs2 false
                    | [] => .error (perr path "unterminated object")
                  else if c2 = rbrace then
                    match buildObject cfg.duplicateKeyPolicy path pairs2 with
                    | .ok (fields, n) =>
                        .ok (.vobj fields, cs5, { fl3 with dups := fl3.dups + n })
                    | .error e => .error e
                  else .error (perr path "expected comma or closing brace")
            else .error (perr path "expected colon after key")

/-- Modelled from the spec: array element loop of the native
LenientParser (missing from src/). -/
def parseArrLoop (cfg : RepairConfig) : Nat → List Char → String → PFlags →
    List Value → Nat → Bool →
    Except VError (Value × List Char × PFlags)
  | 0, _, path, _, _, _, _ => .error (perr path "out of fuel")
  | fuel + 1, cs0, path, fl, elems, idx, isFirst =>
    match skipWs cs0 with
    | [] => .error (perr path "unterminated array")
    | c :: rest =>
      if c = ']' ∧ isFirst then .ok (.varr elems, rest, fl)
      else
        match parseVal cfg fuel (c :: rest) (path ++ "[" ++ toString idx ++ "]") fl with
        | .error e => .error e
        | .ok (v, cs2, fl2) =>
          let elems2 := elems ++ [v]
          match skipWs cs2 with
          | [] => .error (perr path "unterminated array")
          | c2 :: cs3 =>
            if c2 = ',' then
              match skipWs cs3 with
              | c3 :: cs4 =>
                if c3 = ']' then
                  if cfg.dropTrailingCommas then
                    .ok (.varr elems2, cs4, { fl2 with trailing := true })
                  else .error (perr path "trailing comma not allowed")
                else parseArrLoop cfg fuel (c3 :: cs4) path fl2 elems2 (idx + 1) false
              | [] => .error (perr path "unterminated array")
            else if c2 = ']' then .ok (.varr elems2, cs3, fl2)
            else .error (perr path "expected comma or closing bracket")
  end

/-- Modelled from the spec: parse of a whole candidate text: the value
must be followed only by whitespace. -/
def parseJsonish (cfg : RepairConfig) (text : String) :
    Except VError (Value × PFlags) :=
  let cs := text.data
  match parseVal cfg (cs.length * 4 + 16) cs "$" {} with
  | .error e => .error e
  | .ok (v, rest, fl) =>
    if (skipWs rest).isEmpty then .ok (v, fl)
    else .error (perr "$" "trailing characters after value")

/-- Split the input at the first occurrence of a (nonempty) pattern,
returning the part before it and the part after it. -/
def splitOnList (pat : List Char) : List Char → Option (List Char × List Char)
  | [] => none
  | c :: cs =>
    match stripLit pat (c :: cs) with
    | some rest => some ([], rest)
    | none =>
      match splitOnList pat cs with
      | some (pre, post) => some (c :: pre, post)
      | none => none

/-- Trim surrounding whitespace from a character list. -/
def trimChars (cs : List Char) : List Char :=
  ((cs.dropWhile isWs).reverse.dropWhile isWs).reverse

/-- Backtick character (code point 96), the fence delimiter. -/
def tick : Char := Char.ofNat 96

/-- Modelled from the spec: fenced-block location of the native
CandidateExtractor (missing from src/).  Finds the first code fence
tagged for the target grammar and returns its start position, its
content, and the text after the closing fence. -/
def extractFence (cs : List Char) : Option (Nat × List Char × List Char) :=
  match splitOnList (tick :: tick :: tick :: [ 'j', 's', 'o', 'n' ]) cs with
  | none => none
  | some (before, afterTag) =>
    match splitOnList [ tick, tick, tick ] afterTag with
    | none => none
    | some (content, rest) => some (before.length, content, rest)

/-- Modelled from the spec: quote-aware bracket scanning of the native
CandidateExtractor (missing from src/).  Called at an opening bracket;
matches brackets while ignoring bracket characters inside string
literals. -/
def scanBalanced : Nat → List Char → Nat → Option Char → List Char →
    Option (List Char × List Char)
  | 0, _, _, _, _ => none
  | _ + 1, [], _, _, _ => none
  | fuel + 1, c :: cs, depth, some q, acc =>
    if c = q then scanBalanced fuel cs depth none (c :: acc)
    else if c = '\\' then
      match cs with
      | [] => none
      | e :: cs2 => scanBalanced fuel cs2 depth (some q) (e :: c :: acc)
    else scanBalanced fuel cs depth (some q) (c :: acc)
  | fuel + 1, c :: cs, depth, none, acc =>
    if c = lbrace ∨ c = '[' then scanBalanced fuel cs (depth + 1) none (c :: acc)
    else if c = rbrace ∨ c = ']' then
      if depth = 1 then some ((c :: acc).reverse, cs)
      else scanBalanced fuel cs (depth - 1) none (c :: acc)
    else if c = '"' ∨ c = '\'' then scanBalanced fuel cs depth (some c) (c :: acc)
    else scanBalanced fuel cs depth none (c :: acc)

/-- Modelled from the spec: first bracket-balanced top-level structural
region of the input, with its start position and the remaining text. -/
def extractBalancedFrom (cs : List Char) : Option (Nat × List Char × List Char) :=
  let started := cs.dropWhile (fun c => !(c = lbrace || c = '['))
  match scanBalanced (started.length + 1) started 0 none [] with
  | some (region, rest) => some (cs.length - started.length, region, rest)
  | none => none

/-- Modelled from the spec: one extraction step used by the repeated,
document-order candidate scan: the earliest of the first tagged fence and
the first balanced region wins. -/
def extractOne (cs : List Char) : Option (List Char × List Char) :=
  match extractFence cs, extractBalancedFrom cs with
  | some (fp, fc, fr), some (bp, bc, br) =>
    if fp ≤ bp then some (trimChars fc, fr) else some (trimChars bc, br)
  | some (_, fc, fr), none => some (trimChars fc, fr)
  | none, some (_, bc, br) => some (trimChars bc, br)
  | none, none => none

/-- Modelled from the spec: extract_candidate of the native
CandidateExtractor (missing from src/): prefers the first fenced block
tagged for the grammar, otherwise the first balanced region, trimmed;
none when no candidate exists (NotFound). -/
def extractCandidate (text : String) : Option String :=
  match extractFence text.data with
  | some (_, fc, _) => some (String.mk (trimChars fc))
  | none =>
    match extractBalancedFrom text.data with
    | some (_, bc, _) => some (String.mk (trimChars bc))
    | none => none

/-- Modelled from the spec: repeated non-overlapping extraction over the
remaining text, preserving document order. -/
def extractLoop : Nat → List Char → List String
  | 0, _ => []
  | fuel + 1, cs =>
    match extractOne cs with
    | none => []
    | some (cand, rest) => String.mk cand :: extractLoop fuel rest

/-- Modelled from the spec: extract_candidates of the native
CandidateExtractor (missing from src/). -/
def extractCandidates (text : String) : List String :=
  extractLoop (text.length + 1) text.data

/-- Modelled from the spec: candidate selection inside the native
loads_jsonish pipeline: fence content when a tagged fence exists,
otherwise the first balanced region, otherwise the whole text (whose
parse then reports the parse error).  The boolean records whether the
candidate came from a fence. -/
def extractForLoad (text : String) : String × Bool :=
  match extractFence text.data with
  | some (_, fc, _) => (String.mk (trimChars fc), true)
  | none =>
    match extractBalancedFrom text.data with
    | some (_, bc, _) => (String.mk (trimChars bc), false)
    | none => (text, false)

/-- Modelled from the spec: the native loads_jsonish_ex pipeline
(missing from src/): CandidateExtractor then LenientParser, producing
the value and the Metadata of relaxations actually applied. -/
def loadsJsonishEx (cfg : RepairConfig) (text : String) :
    Except VError (Value × Metadata) :=
  let (candidate, fromFence) := extractForLoad text
  match parseJsonish cfg candidate with
  | .error e => .error e
  | .ok (v, fl) =>
    .ok (v, { extractedFromFence := fromFence,
              replacedPythonLiterals := fl.python,
              droppedTrailingCommas := fl.trailing,
              duplicateKeyCount := fl.dups,
              duplicateKeyPolicy := cfg.duplicateKeyPolicy })

/-- Path segment of an error location: object property or array index. -/
inductive Seg where
  | field (k : String) : Seg
  | idx (i : Nat) : Seg
deriving DecidableEq, Repr

/-- Render path segments: "." for object properties, "[i]" for array
indices. -/
def renderSegs : List Seg → String
  | [] => ""
  | .field k :: r => "." ++ k ++ renderSegs r
  | .idx i :: r => "[" ++ toString i ++ "]" ++ renderSegs r

/-- Internal validation error: kind, location relative to the validated
value, message. -/
structure CError where
  kind : String
  segs : List Seg
  message : String
deriving DecidableEq, Repr

/-- Prepend a path segment to an error location. -/
def pushSeg (s : Seg) (e : CError) : CError := { e with segs := s :: e.segs }

/-- Modelled from the spec: the Schema keyword tree of the native
SchemaValidator (missing from src/), restricted to the keywords the
claims exercise: type, required, properties, additionalProperties,
items, minItems/maxItems, minLength/maxLength, minimum/maximum,
multipleOf, enum, const, default, contains/minContains/maxContains.
Field order of the single constructor:
stype, required, properties, addProps, itemsS, minItemsN, maxItemsN,
minLengthN, maxLengthN, minimumQ, maximumQ, multipleOfQ, enumVs, constV,
defaultV, containsS, minContainsN, maxContainsN. -/
inductive Schema where
  | mk
    (stype : Option String)
    ( required : List String)
    (properties : List (String × Schema))
    (addProps : Bool)
    (itemsS : Option Schema)
    (minItemsN : Option Nat)
    (maxItemsN : Option Nat)
    (minLengthN : Option Nat)
    (maxLengthN : Option Nat)
    (minimumQ : Option QQ)
    (maximumQ : Option QQ)
    (multipleOfQ : Option QQ)
    (enumVs : Option (List Value))
    (constV : Option Value)
    (defaultV : Option Value)
    (containsS : Option Schema)
    (minContainsN : Option Nat)
    (maxContainsN : Option Nat) : Schema
deriving Repr

/-- Schema with no constraints (every keyword absent). -/
def Schema.empty : Schema :=
  .mk none [] [] true none none none none none none none none none none none none none none

/-- Declared properties of a schema. -/
def Schema.props : Schema → List (String × Schema)
  | .mk _ _ p _ _ _ _ _ _ _ _ _ _ _ _ _ _ _ => p

/-- Default value of a schema, when declared. -/
def Schema.defaultOf : Schema → Option Value
  | .mk _ _ _ _ _ _ _ _ _ _ _ _ _ _ d _ _ _ => d

/-- Items sub-schema of a schema, when declared. -/
def Schema.itemsOf : Schema → Option Schema
  | .mk _ _ _ _ i _ _ _ _ _ _ _ _ _ _ _ _ _ => i

/-- Numeric interpretation of a value: Int and Float are numbers. -/
def Value.asNum : Value → Option QQ
  | .vint n => some (QQ.ofInt n)
  | .vfloat q => some q
  | _ => none

/-- Modelled from the spec: type keyword semantics.  Schema type
"integer" accepts any numeric value representable as a whole number even
when stored with floating representation; "number" accepts both; an
unknown type name is ignored. -/
def typeOk (t : String) (v : Value) : Bool :=
  if t = "object" then (match v with | .vobj _ => true | _ => false)
  else if t = "array" then (match v with | .varr _ => true | _ => false)
  else if t = "string" then (match v with | .vstr _ => true | _ => false)
  else if t = "boolean" then (match v with | .vbool _ => true | _ => false)
  else if t = "null" then (match v with | .vnull => true | _ => false)
  else if t = "integer" then
    (match v with | .vint _ => true | .vfloat q => qIsInt q | _ => false)
  else if t = "number" then
    (match v with | .vint _ => true | .vfloat _ => true | _ => false)
  else true

/-- Round a rational to the nearest integer. -/
def ratRound (q : QQ) : Int := qfloor (qadd q ⟨1, 2⟩)

/-- Tolerance used by the multipleOf comparison. -/
def multipleOfTol : QQ := ⟨1, 1000000000⟩

/-- Modelled from the spec: tolerance-based multipleOf comparison, which
absorbs binary floating representation error: the distance of x from the
nearest integer multiple of m must not exceed the tolerance. -/
def multipleOfOk (x m : QQ) : Bool :=
  if m.num = 0 then true
  else
    let k : Int := ratRound (qdiv x m)
    qle (qabs (qsub x (qmul (QQ.ofInt k) m))) multipleOfTol

/-- Required-keyword errors, in schema-declared order. -/
def reqErrs (req : List String) (fields : List (String × Value)) : List CError :=
  req.filterMap (fun k =>
    if (fields.lookup k).isSome then none
    else some { kind := "required", segs := [Seg.field k],
                message := "missing required property " ++ k })

/-- Unknown-key errors under additionalProperties:false, in value order. -/
def extraErrs (allowed : List String) (fields : List (String × Value)) : List CError :=
  fields.filterMap (fun kv =>
    if allowed.contains kv.1 then none
    else some { kind := "additionalProperties", segs := [Seg.field kv.1],
                message := "unknown property " ++ kv.1 })

/-- String-length errors. -/
def strLenErrs (lo hi : Option Nat) (len : Nat) : List CError :=
  (match lo with
   | some n => if len < n then [{ kind := "length", segs := [], message := "string too short" }] else []
   | none => [])
  ++ (match hi with
      | some n => if len > n then [{ kind := "length", segs := [], message := "string too long" }] else []
      | none => [])

/-- Array-length errors from minItems/maxItems. -/
def arrLenErrs (lo hi : Option Nat) (len : Nat) : List CError :=
  (match lo with
   | some n => if len < n then [{ kind := "length", segs := [], message := "too few items" }] else []
   | none => [])
  ++ (match hi with
      | some n => if len > n then [{ kind := "length", segs := [], message := "too many items" }] else []
      | none => [])

/-- Numeric range and multipleOf errors (inclusive bounds). -/
def numErrs (lo hi mOf : Option QQ) (q : QQ) : List CError :=
  (match lo with
   | some m => if qlt q m then [{ kind := "range", segs := [], message := "below minimum" }] else []
   | none => [])
  ++ (match hi with
      | some m => if qlt m q then [{ kind := "range", segs := [], message := "above maximum" }] else []
      | none => [])
  ++ (match mOf with
      | some m => if multipleOfOk q m then [] else [{ kind := "range", segs := [], message := "not a multiple" }]
      | none => [])

/-- Contains-count errors: the count of elements individually satisfying
the contains sub-schema must fall in [minContains, maxContains]
(minContains defaults to 1). -/
def containsErrs (count : Nat) (lo hi : Option Nat) : List CError :=
  (if count < lo.getD 1 then
    [{ kind := "contains", segs := [], message := "too few matching items" }]
   else [])
  ++ (match hi with
      | some n => if count > n then [{ kind := "contains", segs := [], message := "too many matching items" }] else []
      | none => [])

/-- Apply compiled per-property checkers to an object's fields:
schema-declared order, errors of property k prefixed with segment .k. -/
def applyPropCheckers : List (String × (Value → List CError)) →
    List (String × Value) → List CError
  | [], _ => []
  | (k, c) :: ps, fields =>
    (match fields.lookup k with
     | some v => (c v).map (pushSeg (Seg.field k))
     | none => [])
    ++ applyPropCheckers ps fields

/-- Apply a compiled items checker elementwise; errors of element i are
prefixed with segment [i]. -/
def applyItemChecker (ic : Value → List CError) : List Value → Nat → List CError
  | [], _ => []
  | e :: es, i => (ic e).map (pushSeg (Seg.idx i)) ++ applyItemChecker ic es (i + 1)

/-- Count of elements individually satisfying a compiled contains
checker. -/
def countSatisfying (ic : Value → List CError) : List Value → Nat
  | [] => 0
  | e :: es => (if (ic e).isEmpty then 1 else 0) + countSatisfying ic es

mutual
/-- Modelled from the spec: the native SchemaValidator (missing from
src/), compiled schema-first so that recursion is structural on the
schema keyword tree.  The produced checker collects every violation in
deterministic traversal order: type, then shape-specific keywords
(object: required, properties in schema-declared order,
additionalProperties; array: minItems/maxItems, items by index,
contains; string: length), then numeric keywords, then enum/const.
Error locations are relative to the checked value. -/
def mkChecker : Schema → Value → List CError
  | .mk t req props addp itemsS minI maxI minL maxL minQ maxQ mOf enumL cst _ contS minC maxC =>
    let propCheckers := mkCheckers props
    let itemChecker : Option (Value → List CError) :=
      match itemsS with
      | some sub => some (mkChecker sub)
      | none => none
    let contChecker : Option (Value → List CError) :=
      match contS with
      | some sub => some (mkChecker sub)
      | none => none
    fun v =>
      (match t with
       | some tn => if typeOk tn v then [] else [{ kind := "type", segs := [], message := "expected type " ++ tn }]
       | none => [])
      ++ (match v with
          | .vobj fields =>
              reqErrs req fields
              ++ applyPropCheckers propCheckers fields
              ++ (if addp then [] else extraErrs (props.map Prod.fst) fields)
          | .varr elems =>
              arrLenErrs minI maxI elems.length
              ++ (match itemChecker with
                  | some ic => applyItemChecker ic elems 0
                  | none => [])
              ++ (match contChecker with
                  | some ic => containsErrs (countSatisfying ic elems) minC maxC
                  | none => [])
          | .vstr s => strLenErrs minL maxL s.length
          | _ => [])
      ++ (match v.asNum with
          | some q => numErrs minQ maxQ mOf q
          | none => [])
      ++ (match enumL with
          | some ws =>
              if ws.any (fun w => w == v) then []
              else [{ kind := "enum", segs := [], message := "value not in enum" }]
          | none => [])
      ++ (match cst with
          | some w =>
              if w == v then []
              else [{ kind := "const", segs := [], message := "value differs from const" }]
          | none => [])

/-- Compile the checkers of a property list (schema-declared order). -/
def mkCheckers : List (String × Schema) → List (String × (Value → List CError))
  | [] => []
  | (k, sub) :: ps => (k, mkChecker sub) :: mkCheckers ps
end

/-- The validator entry point over a schema and a value. -/
def checkValue (sch : Schema) (v : Value) : List CError :=
  mkChecker sch v

/-- Render an internal error against a base path. -/
def renderCError (basePath : String) (e : CError) : VError :=
  { kind := e.kind, path := basePath ++ renderSegs e.segs, message := e.message }

/-- Modelled from the spec: validate_all of the native SchemaValidator
(missing from src/): the ordered list of every violation, with paths
composed from the base path. -/
def validateAll (sch : Schema) (v : Value) (basePath : String) : List VError :=
  (checkValue sch v).map (renderCError basePath)

/-- Walk compiled per-property defaulters: recurse into present
properties, append the schema default for missing ones (field order of
present keys kept). -/
def applyDefProps : List (String × ((Value → Value) × Option Value)) →
    List (String × Value) → List (String × Value)
  | [], fields => fields
  | (k, dp) :: ps, fields =>
    match fields.lookup k with
    | some v => applyDefProps ps (setKey fields k (dp.1 v))
    | none =>
      match dp.2 with
      | some dv => applyDefProps ps (fields ++ [(k, dv)])
      | none => applyDefProps ps fields

mutual
/-- Modelled from the spec: the validate-with-defaults preprocessing of
the native SchemaValidator (missing from src/): clone the value and fill
any missing object property with its schema default, recursively, before
validating the clone normally.  Compiled schema-first like the
validator. -/
def mkDefaulter : Schema → Value → Value
  | .mk _ _ props _ itemsS _ _ _ _ _ _ _ _ _ _ _ _ _ =>
    let dprops := mkDefaulterProps props
    let ditems : Option (Value → Value) :=
      match itemsS with
      | some sub => some (mkDefaulter sub)
      | none => none
    fun v =>
      match v with
      | .vobj fields => .vobj (applyDefProps dprops fields)
      | .varr elems =>
        (match ditems with
         | some d => .varr (elems.map d)
         | none => .varr elems)
      | w => w

/-- Compile the defaulters and declared defaults of a property list. -/
def mkDefaulterProps : List (String × Schema) →
    List (String × ((Value → Value) × Option Value))
  | [] => []
  | (k, sub) :: ps => (k, (mkDefaulter sub, Schema.defaultOf sub)) :: mkDefaulterProps ps
end

/-- The defaults-filling entry point. -/
def applyDefaults (sch : Schema) (v : Value) : Value :=
  mkDefaulter sch v

/-- Modelled from the spec: parse of each batch candidate in order;
the first parse failure aborts. -/
def parseCands (cfg : RepairConfig) : List String → Except VError (List Value)
  | [] => .ok []
  | c :: cs =>
    match parseJsonish cfg c with
    | .error e => .error e
    | .ok (v, _) =>
      match parseCands cfg cs with
      | .error e => .error e
      | .ok vs => .ok (v :: vs)

/-- Modelled from the spec: batch validation with error paths indexed as
"$[i]...". -/
def indexedErrors (sch : Schema) : List Value → Nat → List VError
  | [], _ => []
  | v :: vs, i =>
    validateAll sch v ("$[" ++ toString i ++ "]") ++ indexedErrors sch vs (i + 1)

/-- Modelled from the spec: the native parse_and_validate_json_all
(missing from src/): the buffer is a concatenation of independently
recognized top-level values; each is individually validated with error
paths indexed as "$[i]...", and the first error is surfaced. -/
def parseAndValidateJsonAll (text : String) (sch : Schema) :
    Except VError (List Value) :=
  let cands := extractCandidates text
  if cands.isEmpty then .error (perr "$" "no candidate found") else
  match parseCands {} cands with
  | .error e => .error e
  | .ok vals =>
    match indexedErrors sch vals 0 with
    | [] => .ok vals
    | e :: _ => .error e

/-- StreamState: bounded buffer owned by one streaming session.  The
buffer length is modelled in characters (the observed inputs are ASCII,
one byte per character); exceeding maxBufferBytes is terminal and caches
a limit error. -/
structure StreamState where
  buffer : String
  maxBufferBytes : Nat
  finished : Bool
  limitErr : Option VError
deriving DecidableEq, Repr

/-- Fresh stream session with the given buffer bound. -/
def mkStream (maxB : Nat) : StreamState :=
  { buffer := "", maxBufferBytes := maxB, finished := false, limitErr := none }

/-- The limit error of a stream whose buffer bound is n:
path "$.stream.maxBufferBytes", limit payload kind "maxBufferBytes",
max n. -/
def limitVError (n : Nat) : VError :=
  { kind := "limit", path := "$.stream.maxBufferBytes",
    message := "maxBufferBytes exceeded",
    limit := some { kind := "maxBufferBytes", max := n } }

/-- Modelled from the spec: append(chunk) of the native StreamEngine
(missing from src/).  A session that already failed closed accepts no
further bytes; if the resulting length would exceed maxBufferBytes
(length == N accepted, N+1 rejected) the session fails closed with a
cached limit error; otherwise the chunk is appended. -/
def StreamState.append (st : StreamState) (chunk : String) : StreamState :=
  if st.limitErr.isSome then st
  else if st.buffer.length + chunk.length > st.maxBufferBytes then
    { st with limitErr := some (limitVError st.maxBufferBytes) }
  else { st with buffer := st.buffer ++ chunk }

/-- Modelled from the spec: finish() of the native StreamEngine. -/
def StreamState.finish (st : StreamState) : StreamState :=
  { st with finished := true }

/-- Poll outcome: done, ok, final value, error. -/
structure PollResult where
  done : Bool
  ok : Bool
  value : Option Value
  error : Option VError
deriving DecidableEq, Repr

/-- Modelled from the spec: poll() of the native single-value validated
stream session (missing from src/).  A failed-closed session returns the
cached terminal limit outcome; before finish an unparsable prefix yields
done=false (success is only resolved on finish, the conservative
choice); after finish the buffer is extracted, parsed and validated. -/
def pollJson (sch : Schema) (st : StreamState) : PollResult :=
  match st.limitErr with
  | some e => { done := true, ok := false, value := none, error := some e }
  | none =>
    if st.finished then
      match loadsJsonishEx {} st.buffer with
      | .error e => { done := true, ok := false, value := none, error := some e }
      | .ok (v, _) =>
        match validateAll sch v "$" with
        | [] => { done := true, ok := true, value := some v, error := none }
        | e :: _ => { done := true, ok := false, value := some v, error := some e }
    else { done := false, ok := false, value := none, error := none }

/-- Modelled from the spec: poll() of the native validated batch
collector (missing from src/).  The buffer is treated as a concatenation
of independently recognized top-level values; defaults are applied per
item before validation and error paths are indexed as "$[i]...". -/
def pollValidatedBatch (sch : Schema) (st : StreamState) : PollResult :=
  match st.limitErr with
  | some e => { done := true, ok := false, value := none, error := some e }
  | none =>
    let cands := extractCandidates st.buffer
    match parseCands {} cands with
    | .error e =>
      if st.finished then { done := true, ok := false, value := none, error := some e }
      else { done := false, ok := false, value := none, error := none }
    | .ok vals =>
      let items := vals.map (applyDefaults sch)
      match indexedErrors sch items 0 with
      | [] => { done := st.finished, ok := true, value := some (.varr items), error := none }
      | e :: _ =>
        { done := st.finished, ok := false, value := some (.varr items), error := some e }

/-- Declared type of a schema. -/
def Schema.stypeOf : Schema → Option String
  | .mk t _ _ _ _ _ _ _ _ _ _ _ _ _ _ _ _ _ => t

/-- Declared minimum of a schema. -/
def Schema.minimumOf : Schema → Option QQ
  | .mk _ _ _ _ _ _ _ _ _ lo _ _ _ _ _ _ _ _ => lo

/-- Declared maximum of a schema. -/
def Schema.maximumOf : Schema → Option QQ
  | .mk _ _ _ _ _ _ _ _ _ _ hi _ _ _ _ _ _ _ => hi

/-- Declared maxLength of a schema. -/
def Schema.maxLengthOf : Schema → Option Nat
  | .mk _ _ _ _ _ _ _ _ hi _ _ _ _ _ _ _ _ _ => hi

/-- Declared maxItems of a schema. -/
def Schema.maxItemsOf : Schema → Option Nat
  | .mk _ _ _ _ _ _ hi _ _ _ _ _ _ _ _ _ _ _ => hi

/-- Declared enum of a schema. -/
def Schema.enumOf : Schema → Option (List Value)
  | .mk _ _ _ _ _ _ _ _ _ _ _ _ e _ _ _ _ _ => e

/-- ValidationRepairConfig of the RepairEngine: independently toggleable
repair flags plus a cap on recorded suggestions. -/
structure VRepairConfig where
  coerce_types : Bool := false
  use_defaults : Bool := false
  clamp_numbers : Bool := false
  truncate_strings : Bool := false
  truncate_arrays : Bool := false
  remove_extra_properties : Bool := false
  fix_enums : Bool := false
  fix_formats : Bool := false
  max_suggestions : Option Nat := none
deriving DecidableEq, Repr

/-- RepairSuggestion: path, error kind, suggested value, applied flag. -/
structure RepairSuggestion where
  path : String
  error_kind : String
  suggestion : Option Value
  applied : Bool
deriving DecidableEq, Repr

/-- RepairResult returned by validate_with_repair: all outcomes are
data. -/
structure RepairResult where
  valid : Bool
  fully_repaired : Bool
  repaired_value : Value
  suggestions : List RepairSuggestion
  unfixable_errors : List VError
deriving DecidableEq, Repr

/-- Modelled from the spec: type coercion of the RepairEngine (missing
from src/): parse/convert an observed value into the declared type,
e.g. numeric string to number, or to integer when whole. -/
def coerceTo (t : String) (v : Value) : Option Value :=
  if t = "integer" then
    match v with
    | .vstr s =>
      (match parseNumber s.data "$" with
       | .ok (.vint n, []) => some (.vint n)
       | .ok (.vfloat q, []) => if qIsInt q then some (.vint (qfloor q)) else none
       | _ => none)
    | .vfloat q => if qIsInt q then some (.vint (qfloor q)) else none
    | _ => none
  else if t = "number" then
    match v with
    | .vstr s =>
      (match parseNumber s.data "$" with
       | .ok (n, []) => some n
       | _ => none)
    | _ => none
  else if t = "string" then
    match v with
    | .vint n => some (.vstr (toString n))
    | _ => none
  else none

/-- Represent a rational bound as a value (integer when whole). -/
def numValue (q : QQ) : Value :=
  if qIsInt q then .vint (qfloor q) else .vfloat q

/-- Modelled from the spec: the local fix the RepairEngine applies at
the offending node, selected by the enabled flag mapped to the error
kind. -/
def localFix (cfg : VRepairConfig) (sch : Schema) (kind : String) (v : Value) :
    Option Value :=
  if kind = "type" ∧ cfg.coerce_types then
    match sch.stypeOf with
    | some t => coerceTo t v
    | none => none
  else if kind = "range" ∧ cfg.clamp_numbers then
    match v.asNum with
    | some q =>
      (match sch.minimumOf with
       | some lo =>
         if qlt q lo then some (numValue lo)
         else
           match sch.maximumOf with
           | some hi => if qlt hi q then some (numValue hi) else none
           | none => none
       | none =>
         match sch.maximumOf with
         | some hi => if qlt hi q then some (numValue hi) else none
         | none => none)
    | none => none
  else if kind = "length" ∧ cfg.truncate_strings then
    match v, sch.maxLengthOf with
    | .vstr s, some n => some (.vstr ⟨s.data.take n⟩)
    | _, _ => none
  else if kind = "length" ∧ cfg.truncate_arrays then
    match v, sch.maxItemsOf with
    | .varr es, some n => some (.varr (es.take n))
    | _, _ => none
  else if kind = "enum" ∧ cfg.fix_enums then
    match v, sch.enumOf with
    | .vstr s, some ws =>
      ws.find? (fun w =>
        match w with
        | .vstr t => t == s.trim || t.toLower == s.trim.toLower
        | _ => false)
    | _, _ => none
  else none

/-- Read the sub-value at an error location. -/
def getAt : Value → List Seg → Option Value
  | v, [] => some v
  | .vobj fields, Seg.field k :: rest => (fields.lookup k).bind (fun w => getAt w rest)
  | .varr es, Seg.idx i :: rest => (es.get? i).bind (fun w => getAt w rest)
  | _, _ => none

/-- Modelled from the spec: navigation of the RepairEngine to the
offending node (missing from src/).  Missing-required and unknown-key
errors are structural fixes applied at the parent object (insert the
schema default, drop the key); other kinds are fixed locally at the
node. -/
def fixAt : VRepairConfig → Schema → Value → List Seg → String → Option Value
  | cfg, sch, v, [], kind => localFix cfg sch kind v
  | cfg, sch, .vobj fields, Seg.field k :: rest, kind =>
    if rest.isEmpty ∧ kind = "required" then
      if cfg.use_defaults then
        match (sch.props.lookup k).bind Schema.defaultOf with
        | some d => some (.vobj (fields ++ [(k, d)]))
        | none => none
      else none
    else if rest.isEmpty ∧ kind = "additionalProperties" then
      if cfg.remove_extra_properties then
        some (.vobj (fields.filter (fun kv => !(kv.1 == k))))
      else none
    else
      match fields.lookup k, sch.props.lookup k with
      | some vk, some sub =>
        (match fixAt cfg sub vk rest kind with
         | some vk2 => some (.vobj (setKey fields k vk2))
         | none => none)
      | _, _ => none
  | cfg, sch, .varr elems, Seg.idx i :: rest, kind =>
    match elems.get? i, sch.itemsOf with
    | some e, some sub =>
      (match fixAt cfg sub e rest kind with
       | some e2 => some (.varr (elems.set i e2))
       | none => none)
    | _, _ => none
  | _, _, _, _, _ => none

/-- Outcome of one local fix attempt of the RepairEngine. -/
inductive FixOutcome where
  | applied (cand : Value) (s : RepairSuggestion) : FixOutcome
  | unapplied (s : RepairSuggestion) : FixOutcome
  | skipped : FixOutcome
deriving DecidableEq, Repr

/-- Modelled from the spec: one local fix attempt.  Once the suggestion
cap is reached, or when no enabled flag maps to the error kind, the
attempt is skipped; otherwise the candidate fix is applied only when it
removes the violation without introducing a new one (strictly fewer
violations overall), else it is recorded unapplied. -/
def fixOutcome (cfg : VRepairConfig) (sch : Schema) (cur : Value)
    (nsugg : Nat) (e : CError) : FixOutcome :=
  let capped :=
    match cfg.max_suggestions with
    | some cap => decide (nsugg ≥ cap)
    | none => false
  if capped then .skipped
  else
    match fixAt cfg sch cur e.segs e.kind with
    | none => .skipped
    | some cand =>
      if (checkValue sch cand).length < (checkValue sch cur).length then
        .applied cand { path := (renderCError "$" e).path, error_kind := e.kind,
                        suggestion := getAt cand e.segs, applied := true }
      else
        .unapplied { path := (renderCError "$" e).path, error_kind := e.kind,
                     suggestion := getAt cand e.segs, applied := false }

/-- Modelled from the spec: one step of the RepairEngine over the
initial error set: an applied fix is folded into the repaired value; an
unapplied or skipped one retains the original error in
unfixable_errors. -/
def repairStep (cfg : VRepairConfig) (sch : Schema)
    (st : Value × List RepairSuggestion × List VError) (e : CError) :
    Value × List RepairSuggestion × List VError :=
  match fixOutcome cfg sch st.1 st.2.1.length e with
  | .applied cand s => (cand, st.2.1 ++ [s], st.2.2)
  | .unapplied s => (st.1, st.2.1 ++ [s], st.2.2 ++ [renderCError "$" e])
  | .skipped => (st.1, st.2.1, st.2.2 ++ [renderCError "$" e])

/-- Modelled from the spec: validate_with_repair of the native
RepairEngine (missing from src/).  It is a total function: every outcome
is data; unfixable ValidationErrors are downgraded into
unfixable_errors rather than failing the call. -/
def validateWithRepair (v : Value) (sch : Schema) (cfg : VRepairConfig) :
    RepairResult :=
  let errs := checkValue sch v
  let r := errs.foldl (repairStep cfg sch) (v, [], [])
  { valid := errs.isEmpty,
    fully_repaired := (checkValue sch r.1).isEmpty,
    repaired_value := r.1,
    suggestions := r.2.1,
    unfixable_errors := r.2.2 }

/-- Lexical token of the strict serialization grammar.  The claims about
serialize/re-parse idempotence are stated at the token level: a token
carries the exact payload its lexeme denotes. -/
inductive Tok where
  | tlb : Tok
  | trb : Tok
  | tlk : Tok
  | trk : Tok
  | tcolon : Tok
  | tcomma : Tok
  | tnull : Tok
  | tbool (b : Bool) : Tok
  | tint (n : Int) : Tok
  | tfloat (q : QQ) : Tok
  | tstr (s : String) : Tok
deriving DecidableEq, Repr

mutual
/-- Modelled from the spec: the native dumps_json serializer (missing
from src/), at the token level: strict grammar, object fields in stored
order, array elements in order. -/
def dumpToks : Value → List Tok
  | .vnull => [.tnull]
  | .vbool b => [.tbool b]
  | .vint n => [.tint n]
  | .vfloat q => [.tfloat q]
  | .vstr s => [.tstr s]
  | .varr es => .tlk :: dumpArrToks es ++ [.trk]
  | .vobj fs => .tlb :: dumpObjToks fs ++ [.trb]

/-- Comma-separated dump of array elements. -/
def dumpArrToks : List Value → List Tok
  | [] => []
  | [e] => dumpToks e
  | e :: es => dumpToks e ++ .tcomma :: dumpArrToks es

/-- Comma-separated dump of object members. -/
def dumpObjToks : List (String × Value) → List Tok
  | [] => []
  | [(k, v)] => .tstr k :: .tcolon :: dumpToks v
  | (k, v) :: fs => .tstr k :: .tcolon :: dumpToks v ++ .tcomma :: dumpObjToks fs
end

mutual
/-- Modelled from the spec: one value of the re-parse of serialized
output, at the token level, with fuel.  Objects resolve duplicate keys
under the default firstWins policy via buildObject. -/
def parseToksVal : Nat → List Tok → Except VError (Value × List Tok)
  | 0, _ => .error (perr "$" "out of fuel")
  | _ + 1, [] => .error (perr "$" "unexpected end of tokens")
  | fuel + 1, t :: ts =>
    match t with
    | .tnull => .ok (.vnull, ts)
    | .tbool b => .ok (.vbool b, ts)
    | .tint n => .ok (.vint n, ts)
    | .tfloat q => .ok (.vfloat q, ts)
    | .tstr s => .ok (.vstr s, ts)
    | .tlk =>
      (match ts with
       | .trk :: ts2 => .ok (.varr [], ts2)
       | _ => parseToksArr fuel ts [])
    | .tlb =>
      (match ts with
       | .trb :: ts2 =>
         (match buildObject .firstWins "$" [] with
          | .ok (fields, _) => .ok (.vobj fields, ts2)
          | .error e => .error e)
       | _ => parseToksObj fuel ts [])
    | _ => .error (perr "$" "unexpected token")

/-- Array loop of the token re-parser: one element, then comma or
close. -/
def parseToksArr : Nat → List Tok → List Value → Except VError (Value × List Tok)
  | 0, _, _ => .error (perr "$" "out of fuel")
  | fuel + 1, ts, elems =>
    match parseToksVal fuel ts with
    | .error e => .error e
    | .ok (v, ts2) =>
      match ts2 with
      | .trk :: ts3 => .ok (.varr (elems ++ [v]), ts3)
      | .tcomma :: ts3 => parseToksArr fuel ts3 (elems ++ [v])
      | _ => .error (perr "$" "expected comma or closing bracket")

/-- Object loop of the token re-parser: one key/colon/value member, then
comma or close; duplicate keys resolved via buildObject (firstWins). -/
def parseToksObj : Nat → List Tok → List (String × Value) →
    Except VError (Value × List Tok)
  | 0, _, _ => .error (perr "$" "out of fuel")
  | fuel + 1, .tstr k :: .tcolon :: ts, pairs =>
    (match parseToksVal fuel ts with
     | .error e => .error e
     | .ok (v, ts2) =>
       match ts2 with
       | .trb :: ts3 =>
         (match buildObject .firstWins "$" (pairs ++ [(k, v)]) with
          | .ok (fields, _) => .ok (.vobj fields, ts3)
          | .error e => .error e)
       | .tcomma :: ts3 => parseToksObj fuel ts3 (pairs ++ [(k, v)])
       | _ => .error (perr "$" "expected comma or closing brace"))
  | _ + 1, _, _ => .error (perr "$" "expected object key")
end

/-- No-duplicate check on a key list. -/
def noDupKeys : List String → Bool
  | [] => true
  | k :: ks => !(ks.contains k) && noDupKeys ks

mutual
/-- Well-formed values: every object in the tree has pairwise distinct
keys.  Values produced from strict input satisfy this: the parser
resolves duplicate keys per policy, so its object field lists carry each
key once. -/
def wellFormedV : Value → Bool
  | .vnull => true
  | .vbool _ => true
  | .vint _ => true
  | .vfloat _ => true
  | .vstr _ => true
  | .varr es => wellFormedL es
  | .vobj fs => noDupKeys (fs.map Prod.fst) && wellFormedF fs

/-- Well-formedness of an element list. -/
def wellFormedL : List Value → Bool
  | [] => true
  | e :: es => wellFormedV e && wellFormedL es

/-- Well-formedness of a field list. -/
def wellFormedF : List (String × Value) → Bool
  | [] => true
  | kv :: fs => wellFormedV kv.2 && wellFormedF fs
end

mutual
/-- Fuel sufficient for the token re-parser on a dumped value. -/
def vfuel : Value → Nat
  | .vnull => 1
  | .vbool _ => 1
  | .vint _ => 1
  | .vfloat _ => 1
  | .vstr _ => 1
  | .varr es => 2 + lfuel es
  | .vobj fs => 2 + ffuel fs

/-- Fuel for an element list. -/
def lfuel : List Value → Nat
  | [] => 0
  | e :: es => vfuel e + 2 + lfuel es

/-- Fuel for a field list. -/
def ffuel : List (String × Value) → Nat
  | [] => 0
  | kv :: fs => vfuel kv.2 + 2 + ffuel fs
end

/-- Python exception model at the wrapper boundary: the native
ValidationError (carrying kind and path attributes), ValueError, and any
other exception type. -/
inductive PyExc where
  | validationError (kind : String) (path : String) (message : String) : PyExc
  | valueError (message : String) : PyExc
  | otherExc (name : String) (message : String) : PyExc
deriving DecidableEq, Repr

/-- The str() of an exception as the wrapper uses it. -/
def pyStr : PyExc → String
  | .validationError _ p m => p ++ ": " ++ m
  | .valueError m => m
  | .otherExc _ m => m

/-- Embedded from src/python/llm_structured/__init__.py,
extract_json_candidate: the native result is stripped; every underlying
failure is converted into ValueError(str(exc)). -/
def extract_json_candidate_py (native : Except PyExc String) :
    Except PyExc String :=
  match native with
  | .ok s => .ok s.trim
  | .error e => .error (.valueError (pyStr e))

/-- Embedded from src/python/llm_structured/__init__.py, loads_jsonish:
ValidationError is re-raised unchanged; every other underlying failure
is converted into ValueError(str(exc)). -/
def loads_jsonish_py (native : Except PyExc Value) : Except PyExc Value :=
  match native with
  | .ok v => .ok v
  | .error (.validationError k p m) => .error (.validationError k p m)
  | .error e => .error (.valueError (pyStr e))

/-- Modelled from the spec: the native extract_json_candidate, whose
NotFound failure surfaces as an exception. -/
def nativeExtractJson (text : String) : Except PyExc String :=
  match extractCandidate text with
  | some c => .ok c
  | none => .error (.otherExc "NotFound" "no JSON candidate found in text")

/-- The public extract_json_candidate entry point: wrapper over the
native extractor. -/
def extract_json_candidate (text : String) : Except PyExc String :=
  extract_json_candidate_py (nativeExtractJson text)

/-- Modelled from the spec: the native loads_jsonish, whose parse
failures are ValidationError values of kind "parse". -/
def nativeLoadsJsonish (text : String) : Except PyExc Value :=
  match loadsJsonishEx {} text with
  | .ok (v, _) => .ok v
  | .error e => .error (.validationError e.kind e.path e.message)

/-- The public loads_jsonish entry point: wrapper over the native
parser. -/
def loads_jsonish (text : String) : Except PyExc Value :=
  loads_jsonish_py (nativeLoadsJsonish text)

/-- The exact rational value of the IEEE binary64 double nearest 0.1. -/
def d0p1 : QQ := ⟨3602879701896397, 36028797018963968⟩

/-- The exact rational value of the IEEE binary64 double nearest 0.3. -/
def d0p3 : QQ := ⟨5404319552844595, 18014398509481984⟩

/-- The exact rational value of the IEEE binary64 double nearest 0.35. -/
def d0p35 : QQ := ⟨3152519739159347, 9007199254740992⟩

/-- Schema \x7btype:"number", multipleOf:0.1\x7d with 0.1 stored as its
binary64 value. -/
def multSchema : Schema :=
  .mk (some "number") [] [] true none none none none none none none (some d0p1)
    none none none none none none

/-- Schema \x7btype:"integer"\x7d. -/
def intSchema : Schema :=
  .mk (some "integer") [] [] true none none none none none none none none
    none none none none none none

/-- Schema \x7bcontains:\x7btype:"integer"\x7d, minContains:2,
maxContains:2\x7d on arrays. -/
def containsSchema : Schema :=
  .mk (some "array") [] [] true none none none none none none none none
    none none none (some intSchema) (some 2) (some 2)

/-- Property schema \x7btype:"integer", default:1\x7d. -/
def ageSchema : Schema :=
  .mk (some "integer") [] [] true none none none none none none none none
    none none (some (.vint 1)) none none none

/-- Schema \x7brequired:["age"], properties:\x7bage:\x7btype:"integer",
default:1\x7d\x7d\x7d. -/
def c6Schema : Schema :=
  .mk (some "object") ["age"] [("age", ageSchema)] true none none none none
    none none none none none none none none none none

/-- Schema \x7btype:"object", required:["a"],
properties:\x7ba:\x7btype:"integer"\x7d\x7d\x7d. -/
def c7Schema : Schema :=
  .mk (some "object") ["a"] [("a", intSchema)] true none none none none
    none none none none none none none none none none

/-- Schema \x7btype:"object", enum:[\x7ba:1\x7d]\x7d: an object-valued
enum, violated at the root of a mismatching object. -/
def c7xSchema : Schema :=
  .mk (some "object") [] [] true none none none none none none none none
    (some [.vobj [("a", .vint 1)]]) none none none none none

theorem lookup_append_or (l1 l2 : List (String × Value)) (k : String) :
    (l1 ++ l2).lookup k = ((l1.lookup k).orElse (fun _ => l2.lookup k)) := by
  induction l1 with
  | nil => simp
  | cons kv t ih =>
    obtain ⟨k1, v1⟩ := kv
    by_cases h : k = k1
    · subst h
      simp [List.lookup_cons]
    · have hb : (k == k1) = false := by simp [h]
      simp [List.lookup_cons, hb, ih]

theorem lookup_eq_none_of_not_mem {l : List (String × Value)} {k : String}
    (h : k ∉ l.map Prod.fst) : l.lookup k = none := by
  induction l with
  | nil => rfl
  | cons kv t ih =>
    obtain ⟨k1, v1⟩ := kv
    simp only [List.map_cons, List.mem_cons] at h
    push_neg at h
    have hb : (k == k1) = false := by simp [h.1]
    simp [List.lookup_cons, hb]
    intro a b hmem heq
    exact h.2 (heq ▸ List.mem_map_of_mem Prod.fst hmem)

theorem setKey_not_mem {l : List (String × Value)} {k : String} (v : Value)
    (h : k ∉ l.map Prod.fst) : setKey l k v = l := by
  induction l with
  | nil => rfl
  | cons kv t ih =>
    obtain ⟨k1, v1⟩ := kv
    simp only [List.map_cons, List.mem_cons] at h
    push_neg at h
    have hne : k1 ≠ k := fun he => h.1 he.symm
    simp [setKey, hne]
    exact ih h.2

theorem setKey_append (l1 l2 : List (String × Value)) (k : String) (v : Value) :
    setKey (l1 ++ l2) k v = setKey l1 k v ++ setKey l2 k v := by
  simp [setKey]

theorem setKey_hit {l : List (String × Value)} (k : String) (v w : Value) :
    setKey ((k, w) :: l) k v = (k, v) :: setKey l k v := by
  simp [setKey]

theorem foldlM_buildObject_go (policy : DupPolicy) (path : String) :
    ∀ (pairs acc : List (String × Value)) (n : Nat),
      (pairs.map Prod.fst).Nodup →
      (∀ k, k ∈ pairs.map Prod.fst → acc.lookup k = none) →
      pairs.foldlM (buildObjectStep policy path) (acc, n) = .ok (acc ++ pairs, n) := by
  intro pairs
  induction pairs with
  | nil => intro acc n _ _; simp [List.foldlM_nil, pure, Except.pure]
  | cons kv t ih =>
    intro acc n hnd hacc
    obtain ⟨k, v⟩ := kv
    have hk : acc.lookup k = none := hacc k (by simp)
    simp only [List.map_cons, List.nodup_cons] at hnd
    have step : buildObjectStep policy path (acc, n) (k, v) = .ok (acc ++ [(k, v)], n) := by
      simp [buildObjectStep, hk]
    rw [List.foldlM_cons, step]
    have hacc2 : ∀ k2, k2 ∈ t.map Prod.fst → (acc ++ [(k, v)]).lookup k2 = none := by
      intro k2 hk2
      rw [lookup_append_or]
      have h1 : acc.lookup k2 = none := hacc k2 (by simp [hk2])
      have hne : k2 ≠ k := fun he => hnd.1 (he ▸ hk2)
      have hb : (k2 == k) = false := by simp [hne]
      simp [h1, List.lookup_cons, hb]
    have := ih (acc ++ [(k, v)]) n hnd.2 hacc2
    simp only [show ((.ok (acc ++ [(k, v)], n) : Except VError _) >>= fun b =>
        t.foldlM (buildObjectStep policy path) b) = t.foldlM (buildObjectStep policy path)
        (acc ++ [(k, v)], n) from rfl]
    rw [this]
    simp

theorem bind_ok_foldlM (f : List (String × Value) × Nat → String × Value →
    Except VError (List (String × Value) × Nat)) (a : List (String × Value) × Nat)
    (l : List (String × Value)) :
    ((.ok a : Except VError (List (String × Value) × Nat)) >>= fun b => l.foldlM f b)
      = l.foldlM f a := rfl

theorem bind_error_foldlM (f : List (String × Value) × Nat → String × Value →
    Except VError (List (String × Value) × Nat)) (e : VError)
    (l : List (String × Value)) :
    ((.error e : Except VError (List (String × Value) × Nat)) >>= fun b => l.foldlM f b)
      = .error e := rfl

/-- C2.  Duplicate-key policies: for a parsed object whose key/value
sequence contains K exactly twice, with values V1 then V2 (all other
keys distinct and different from K), firstWins keeps \x7bK:V1\x7d with
duplicate count 1, lastWins keeps \x7bK:V2\x7d at the original position
with duplicate count 1, and the error policy fails with a ParseError of
kind "parse" whose path points at the (first occurrence of the) repeated
key, e.g. "$.a" for key "a" under base path "$". -/
theorem duplicate_key_policy_semantics
    (pre mid post : List (String × Value)) (K : String) (V1 V2 : Value) (bp : String)
    (hnd : ((pre ++ mid ++ post).map Prod.fst).Nodup)
    (hK : K ∉ (pre ++ mid ++ post).map Prod.fst) :
    buildObject .firstWins bp (pre ++ (K, V1) :: (mid ++ (K, V2) :: post))
        = .ok (pre ++ (K, V1) :: (mid ++ post), 1)
    ∧ buildObject .lastWins bp (pre ++ (K, V1) :: (mid ++ (K, V2) :: post))
        = .ok (pre ++ (K, V2) :: (mid ++ post), 1)
    ∧ buildObject .dkError bp (pre ++ (K, V1) :: (mid ++ (K, V2) :: post))
        = .error { kind := "parse", path := bp ++ "." ++ K,
                   message := "duplicate key " ++ K } := by
  simp only [List.map_append, List.nodup_append, List.mem_append] at hnd hK
  have hKP : K ∉ pre.map Prod.fst := fun h => hK (Or.inl (Or.inl h))
  have hKM : K ∉ mid.map Prod.fst := fun h => hK (Or.inl (Or.inr h))
  have hKPost : K ∉ post.map Prod.fst := fun h => hK (Or.inr h)
  obtain ⟨⟨hPn, hMn, hPM⟩, hPostn, hPMPost⟩ := hnd
  -- the accumulator after consuming pre, (K,V1) and mid
  set A : List (String × Value) := pre ++ (K, V1) :: mid with hA
  have hAnd : (A.map Prod.fst).Nodup := by
    rw [hA]
    simp only [List.map_append, List.nodup_append, List.map_cons, List.nodup_cons]
    refine ⟨hPn, ⟨hKM, hMn⟩, ?_⟩
    intro a haP hmem
    rcases List.mem_cons.mp hmem with he | haM
    · exact hKP (he ▸ haP)
    · exact hPM haP haM
  have hAlk : ∀ policy, A.foldlM (buildObjectStep policy bp) ([], 0) = .ok (A, 0) := by
    intro policy
    have := foldlM_buildObject_go policy bp A [] 0 hAnd (fun k _ => rfl)
    simpa using this
  have hsplit : pre ++ (K, V1) :: (mid ++ (K, V2) :: post)
      = A ++ (K, V2) :: post := by
    rw [hA]; simp
  have hlkA : A.lookup K = some V1 := by
    rw [hA, lookup_append_or, lookup_eq_none_of_not_mem hKP]
    simp [List.lookup_cons]
  have hPostlk : ∀ k, k ∈ post.map Prod.fst → A.lookup k = none := by
    intro k hk
    rw [hA, lookup_append_or]
    have h1 : pre.lookup k = none := by
      apply lookup_eq_none_of_not_mem
      intro hmem
      exact hPMPost (List.mem_append.mpr (Or.inl hmem)) hk
    have hne : k ≠ K := by
      intro he; exact hKPost (he ▸ hk)
    have hb : (k == K) = false := by simp [hne]
    have h2 : mid.lookup k = none := by
      apply lookup_eq_none_of_not_mem
      intro hmem
      exact hPMPost (List.mem_append.mpr (Or.inr hmem)) hk
    simp [h1, List.lookup_cons, hb, h2]
  have hrun : ∀ policy, buildObject policy bp (pre ++ (K, V1) :: (mid ++ (K, V2) :: post))
      = buildObjectStep policy bp (A, 0) (K, V2) >>=
          fun b => post.foldlM (buildObjectStep policy bp) b := by
    intro policy
    rw [buildObject, hsplit, List.foldlM_append, hAlk, bind_ok_foldlM,
        List.foldlM_cons]
  have hisSome : (A.lookup K).isSome = true := by rw [hlkA]; rfl
  refine ⟨?_, ?_, ?_⟩
  · rw [hrun]
    have hstep : buildObjectStep .firstWins bp (A, 0) (K, V2) = .ok (A, 1) := by
      simp [buildObjectStep, hisSome]
    rw [hstep, bind_ok_foldlM]
    have := foldlM_buildObject_go .firstWins bp post A 1 hPostn hPostlk
    rw [this, hA]
    simp
  · rw [hrun]
    have hsetA : setKey A K V2 = pre ++ (K, V2) :: mid := by
      rw [hA, setKey_append, setKey_not_mem V2 hKP, setKey_hit, setKey_not_mem V2 hKM]
    have hstep : buildObjectStep .lastWins bp (A, 0) (K, V2)
        = .ok (pre ++ (K, V2) :: mid, 1) := by
      simp [buildObjectStep, hisSome, hsetA]
    rw [hstep, bind_ok_foldlM]
    have hPostlk2 : ∀ k, k ∈ post.map Prod.fst → (pre ++ (K, V2) :: mid).lookup k = none := by
      intro k hk
      rw [lookup_append_or]
      have h1 : pre.lookup k = none := by
        apply lookup_eq_none_of_not_mem
        intro hmem
        exact hPMPost (List.mem_append.mpr (Or.inl hmem)) hk
      have hne : k ≠ K := fun he => hKPost (he ▸ hk)
      have hb : (k == K) = false := by simp [hne]
      have h2 : mid.lookup k = none := by
        apply lookup_eq_none_of_not_mem
        intro hmem
        exact hPMPost (List.mem_append.mpr (Or.inr hmem)) hk
      simp [h1, List.lookup_cons, hb, h2]
    have := foldlM_buildObject_go .lastWins bp post (pre ++ (K, V2) :: mid) 1 hPostn hPostlk2
    rw [this]
    simp
  · rw [hrun]
    have hstep : buildObjectStep .dkError bp (A, 0) (K, V2)
        = .error { kind := "parse", path := bp ++ "." ++ K,
                   message := "duplicate key " ++ K } := by
      simp [buildObjectStep, hisSome]
    rw [hstep, bind_error_foldlM]

/-- C2 witness at the concrete object text \x7b"a":1,"a":2\x7d (key "a"
twice, values 1 then 2, base path "$"). -/
theorem duplicate_key_policy_semantics_witness :
    buildObject .firstWins "$" ([] ++ ("a", Value.vint 1) :: ([] ++ ("a", Value.vint 2) :: []))
        = .ok ([] ++ ("a", Value.vint 1) :: ([] ++ []), 1)
    ∧ buildObject .lastWins "$" ([] ++ ("a", Value.vint 1) :: ([] ++ ("a", Value.vint 2) :: []))
        = .ok ([] ++ ("a", Value.vint 2) :: ([] ++ []), 1)
    ∧ buildObject .dkError "$" ([] ++ ("a", Value.vint 1) :: ([] ++ ("a", Value.vint 2) :: []))
        = .error { kind := "parse", path := "$" ++ "." ++ "a",
                   message := "duplicate key " ++ "a" } :=
  duplicate_key_policy_semantics [] [] [] "a" (.vint 1) (.vint 2) "$"
    (by simp) (by simp)

/-- C4.  multipleOf tolerance: with 0.1, 0.3 and 0.35 stored as their
binary64 values, 0.3 validates under multipleOf 0.1 although it is not
an exact multiple (the tolerance absorbs the binary representation
error), while 0.35 fails with a range error. -/
theorem multipleOf_tolerance :
    validateAll multSchema (.vfloat d0p3) "$" = []
    ∧ validateAll multSchema (.vfloat d0p35) "$"
        = [{ kind := "range", path := "$", message := "not a multiple" }]
    ∧ qeqv d0p3 (qmul (QQ.ofInt 3) d0p1) = false := by
  refine ⟨by decide, by decide, by decide⟩

/-- C5.  Contains bounds: under contains:\x7btype:"integer"\x7d with
minContains = maxContains = 2, the array [1,2] validates while [1] and
[1,2,3] each fail with a contains error. -/
theorem contains_bounds :
    validateAll containsSchema (.varr [.vint 1, .vint 2]) "$" = []
    ∧ validateAll containsSchema (.varr [.vint 1]) "$"
        = [{ kind := "contains", path := "$", message := "too few matching items" }]
    ∧ validateAll containsSchema (.varr [.vint 1, .vint 2, .vint 3]) "$"
        = [{ kind := "contains", path := "$", message := "too many matching items" }] := by
  refine ⟨by decide, by decide, by decide⟩

/-- C6.  Validated batch defaults: appending "\x7b\x7d\n" to a validated
batch session with the age-default schema and polling yields ok = true
with the first item's age equal to 1. -/
theorem validated_batch_defaults :
    pollValidatedBatch c6Schema ((mkStream 65536).append ("\x7b\x7d" ++ "\n"))
      = { done := false, ok := true,
          value := some (.varr [.vobj [("age", .vint 1)]]), error := none } := by
  decide

mutual
theorem parseVal_strict_perm : ∀ (fuel : Nat) (cs0 : List Char) (path : String) (fl : PFlags)
    (v : Value) (rest : List Char) (fl' : PFlags),
    parseVal strictParseConfig fuel cs0 path fl = .ok (v, rest, fl') →
    parseVal {} fuel cs0 path fl = .ok (v, rest, fl')
      ∧ fl'.python = fl.python ∧ fl'.trailing = fl.trailing
  | 0, _, _, _, _, _, _, h => Except.noConfusion h
  | fuel + 1, cs0, path, fl, v, rest, fl', h => by
      simp only [parseVal] at h ⊢
      cases hsk : skipWs cs0 with
      | nil => simp only [hsk] at h; exact Except.noConfusion h
      | cons c rest0 =>
        simp only [hsk] at h ⊢
        by_cases h1 : c = lbrace
        · simp only [if_pos h1] at h ⊢
          exact parseObjLoop_strict_perm fuel rest0 path fl [] true v rest fl' h
        · simp only [if_neg h1] at h ⊢
          by_cases h2 : c = '['
          · simp only [if_pos h2] at h ⊢
            exact parseArrLoop_strict_perm fuel rest0 path fl [] 0 true v rest fl' h
          · simp only [if_neg h2] at h ⊢
            by_cases h3 : c = '"'
            · simp only [if_pos h3] at h ⊢
              cases hps : parseStringLit '"' (fuel + 1) rest0 "" with
              | error e => simp only [hps] at h; exact Except.noConfusion h
              | ok p =>
                obtain ⟨s, cs2⟩ := p
                simp only [hps, Except.ok.injEq, Prod.mk.injEq] at h ⊢
                obtain ⟨rfl, rfl, rfl⟩ := h
                exact ⟨⟨rfl, rfl, rfl⟩, rfl, rfl⟩
            · simp only [if_neg h3] at h ⊢
              by_cases h4 : c = '\''
              · rw [if_pos h4] at h
                exact absurd h (by simp [strictParseConfig])
              · simp only [if_neg h4] at h ⊢
                by_cases h5 : c = '-' ∨ c.isDigit = true
                · simp only [if_pos h5] at h ⊢
                  cases hpn : parseNumber (c :: rest0) path with
                  | error e => simp only [hpn] at h; exact Except.noConfusion h
                  | ok p =>
                    obtain ⟨v0, cs2⟩ := p
                    simp only [hpn, Except.ok.injEq, Prod.mk.injEq] at h ⊢
                    obtain ⟨rfl, rfl, rfl⟩ := h
                    exact ⟨⟨rfl, rfl, rfl⟩, rfl, rfl⟩
                · simp only [if_neg h5] at h ⊢
                  cases hs1 : stripLit [ 't', 'r', 'u', 'e' ] (c :: rest0) with
                  | some cs2 =>
                    simp only [hs1, Except.ok.injEq, Prod.mk.injEq] at h ⊢
                    obtain ⟨rfl, rfl, rfl⟩ := h
                    exact ⟨⟨rfl, rfl, rfl⟩, rfl, rfl⟩
                  | none =>
                  simp only [hs1] at h ⊢
                  cases hs2 : stripLit [ 'f', 'a', 'l', 's', 'e' ] (c :: rest0) with
                  | some cs2 =>
                    simp only [hs2, Except.ok.injEq, Prod.mk.injEq] at h ⊢
                    obtain ⟨rfl, rfl, rfl⟩ := h
                    exact ⟨⟨rfl, rfl, rfl⟩, rfl, rfl⟩
                  | none =>
                  simp only [hs2] at h ⊢
                  cases hs3 : stripLit [ 'n', 'u', 'l', 'l' ] (c :: rest0) with
                  | some cs2 =>
                    simp only [hs3, Except.ok.injEq, Prod.mk.injEq] at h ⊢
                    obtain ⟨rfl, rfl, rfl⟩ := h
                    exact ⟨⟨rfl, rfl, rfl⟩, rfl, rfl⟩
                  | none =>
                  simp only [hs3] at h ⊢
                  cases hs4 : stripLit [ 'T', 'r', 'u', 'e' ] (c :: rest0) with
                  | some cs2 =>
                    rw [hs4] at h
                    exact absurd h (by simp [strictParseConfig])
                  | none =>
                  simp only [hs4] at h ⊢
                  cases hs5 : stripLit [ 'F', 'a', 'l', 's', 'e' ] (c :: rest0) with
                  | some cs2 =>
                    rw [hs5] at h
                    exact absurd h (by simp [strictParseConfig])
                  | none =>
                  simp only [hs5] at h ⊢
                  cases hs6 : stripLit [ 'N', 'o', 'n', 'e' ] (c :: rest0) with
                  | some cs2 =>
                    rw [hs6] at h
                    exact absurd h (by simp [strictParseConfig])
                  | none => simp only [hs6] at h; exact Except.noConfusion h

theorem parseObjLoop_strict_perm : ∀ (fuel : Nat) (cs0 : List Char) (path : String)
    (fl : PFlags) (pairs : List (String × Value)) (isFirst : Bool)
    (v : Value) (rest : List Char) (fl' : PFlags),
    parseObjLoop strictParseConfig fuel cs0 path fl pairs isFirst = .ok (v, rest, fl') →
    parseObjLoop {} fuel cs0 path fl pairs isFirst = .ok (v, rest, fl')
      ∧ fl'.python = fl.python ∧ fl'.trailing = fl.trailing
  | 0, _, _, _, _, _, _, _, _, h => Except.noConfusion h
  | fuel + 1, cs0, path, fl, pairs, isFirst, v, rest, fl', h => by
      simp only [parseObjLoop] at h ⊢
      cases hsk : skipWs cs0 with
      | nil => simp only [hsk] at h; exact Except.noConfusion h
      | cons c rest0 =>
        simp only [hsk] at h ⊢
        by_cases h1 : c = rbrace ∧ isFirst = true
        · simp only [if_pos h1] at h ⊢
          rw [show strictParseConfig.duplicateKeyPolicy = DupPolicy.firstWins from rfl] at h
          cases hbo : buildObject .firstWins path pairs with
          | error e => simp only [hbo] at h; exact Except.noConfusion h
          | ok p =>
            obtain ⟨fields, n⟩ := p
            simp only [hbo, Except.ok.injEq, Prod.mk.injEq] at h ⊢
            obtain ⟨rfl, rfl, rfl⟩ := h
            exact ⟨⟨rfl, rfl, rfl⟩, rfl, rfl⟩
        · simp only [if_neg h1] at h ⊢
          by_cases hq : c = '"'
          · simp only [if_pos hq] at h ⊢
            cases hps : parseStringLit '"' (fuel + 1) rest0 "" with
            | error e => simp only [hps] at h; exact Except.noConfusion h
            | ok p =>
              obtain ⟨key, cs2⟩ := p
              simp only [hps] at h ⊢
              cases hsk2 : skipWs cs2 with
              | nil => simp only [hsk2] at h; exact Except.noConfusion h
              | cons d cs3 =>
                simp only [hsk2] at h ⊢
                by_cases hd : d = ':'
                · simp only [if_pos hd] at h ⊢
                  cases hpv : parseVal strictParseConfig fuel cs3 (path ++ "." ++ key) fl with
                  | error e => simp only [hpv] at h; exact Except.noConfusion h
                  | ok p2 =>
                    obtain ⟨v0, cs4, fl3⟩ := p2
                    obtain ⟨hperm, hpy, htr⟩ :=
                      parseVal_strict_perm fuel cs3 (path ++ "." ++ key) fl v0 cs4 fl3 hpv
                    simp only [hpv] at h
                    simp only [hperm]
                    cases hsk3 : skipWs cs4 with
                    | nil => simp only [hsk3] at h; exact Except.noConfusion h
                    | cons c2 cs5 =>
                      simp only [hsk3] at h ⊢
                      by_cases hc2 : c2 = ','
                      · simp only [if_pos hc2] at h ⊢
                        cases hsk4 : skipWs cs5 with
                        | nil => simp only [hsk4] at h; exact Except.noConfusion h
                        | cons c3 cs6 =>
                          simp only [hsk4] at h ⊢
                          by_cases hc3 : c3 = rbrace
                          · rw [if_pos hc3] at h
                            exact absurd h (by simp [strictParseConfig])
                          · simp only [if_neg hc3] at h ⊢
                            obtain ⟨hperm2, hpy2, htr2⟩ :=
                              parseObjLoop_strict_perm fuel (c3 :: cs6) path fl3
                                (pairs ++ [(key, v0)]) false v rest fl' h
                            exact ⟨hperm2, hpy2.trans hpy, htr2.trans htr⟩
                      · simp only [if_neg hc2] at h ⊢
                        by_cases hc2b : c2 = rbrace
                        · simp only [if_pos hc2b] at h ⊢
                          rw [show strictParseConfig.duplicateKeyPolicy = DupPolicy.firstWins from rfl] at h
                          cases hbo : buildObject .firstWins path (pairs ++ [(key, v0)]) with
                          | error e => simp only [hbo] at h; exact Except.noConfusion h
                          | ok p3 =>
                            obtain ⟨fields, n⟩ := p3
                            simp only [hbo, Except.ok.injEq, Prod.mk.injEq] at h ⊢
                            obtain ⟨rfl, rfl, rfl⟩ := h
                            exact ⟨⟨rfl, rfl, rfl⟩, hpy, htr⟩
                        · rw [if_neg hc2b] at h
                          exact Except.noConfusion h
                · rw [if_neg hd] at h
                  exact Except.noConfusion h
          · rw [if_neg hq] at h
            have hnsq : ¬(c = '\'' ∧ strictParseConfig.allowSingleQuotes = true) := by
              rintro ⟨-, habs⟩
              simp [strictParseConfig] at habs
            rw [if_neg hnsq] at h
            exact Except.noConfusion h

theorem parseArrLoop_strict_perm : ∀ (fuel : Nat) (cs0 : List Char) (path : String)
    (fl : PFlags) (elems : List Value) (idx : Nat) (isFirst : Bool)
    (v : Value) (rest : List Char) (fl' : PFlags),
    parseArrLoop strictParseConfig fuel cs0 path fl elems idx isFirst = .ok (v, rest, fl') →
    parseArrLoop {} fuel cs0 path fl elems idx isFirst = .ok (v, rest, fl')
      ∧ fl'.python = fl.python ∧ fl'.trailing = fl.trailing
  | 0, _, _, _, _, _, _, _, _, _, h => Except.noConfusion h
  | fuel + 1, cs0, path, fl, elems, idx, isFirst, v, rest, fl', h => by
      simp only [parseArrLoop] at h ⊢
      cases hsk : skipWs cs0 with
      | nil => simp only [hsk] at h; exact Except.noConfusion h
      | cons c rest0 =>
        simp only [hsk] at h ⊢
        by_cases h1 : c = ']' ∧ isFirst = true
        · simp only [if_pos h1, Except.ok.injEq, Prod.mk.injEq] at h ⊢
          obtain ⟨rfl, rfl, rfl⟩ := h
          exact ⟨⟨rfl, rfl, rfl⟩, rfl, rfl⟩
        · simp only [if_neg h1] at h ⊢
          cases hpv : parseVal strictParseConfig fuel (c :: rest0)
              (path ++ "[" ++ toString idx ++ "]") fl with
          | error e => simp only [hpv] at h; exact Except.noConfusion h
          | ok p =>
            obtain ⟨v0, cs2, fl2⟩ := p
            obtain ⟨hperm, hpy, htr⟩ := parseVal_strict_perm fuel (c :: rest0)
              (path ++ "[" ++ toString idx ++ "]") fl v0 cs2 fl2 hpv
            simp only [hpv] at h
            simp only [hperm]
            cases hsk2 : skipWs cs2 with
            | nil => simp only [hsk2] at h; exact Except.noConfusion h
            | cons c2 cs3 =>
              simp only [hsk2] at h ⊢
              by_cases hc2 : c2 = ','
              · simp only [if_pos hc2] at h ⊢
                cases hsk3 : skipWs cs3 with
                | nil => simp only [hsk3] at h; exact Except.noConfusion h
                | cons c3 cs4 =>
                  simp only [hsk3] at h ⊢
                  by_cases hc3 : c3 = ']'
                  · rw [if_pos hc3] at h
                    exact absurd h (by simp [strictParseConfig])
                  · simp only [if_neg hc3] at h ⊢
                    obtain ⟨hperm2, hpy2, htr2⟩ :=
                      parseArrLoop_strict_perm fuel (c3 :: cs4) path fl2
                        (elems ++ [v0]) (idx + 1) false v rest fl' h
                    exact ⟨hperm2, hpy2.trans hpy, htr2.trans htr⟩
              · simp only [if_neg hc2] at h ⊢
                by_cases hc2b : c2 = ']'
                · simp only [if_pos hc2b, Except.ok.injEq, Prod.mk.injEq] at h ⊢
                  obtain ⟨rfl, rfl, rfl⟩ := h
                  exact ⟨⟨rfl, rfl, rfl⟩, hpy, htr⟩
                · rw [if_neg hc2b] at h
                  exact Except.noConfusion h
end

theorem parseJsonish_strict_perm (text : String) (v : Value) (fl : PFlags)
    (h : parseJsonish strictParseConfig text = .ok (v, fl)) :
    parseJsonish {} text = .ok (v, fl) ∧ fl.python = false ∧ fl.trailing = false := by
  simp only [parseJsonish] at h ⊢
  cases hpv : parseVal strictParseConfig (text.data.length * 4 + 16) text.data "$" {} with
  | error e => simp only [hpv] at h; exact Except.noConfusion h
  | ok p =>
    obtain ⟨v0, rest, fl0⟩ := p
    obtain ⟨hperm, hpy, htr⟩ :=
      parseVal_strict_perm (text.data.length * 4 + 16) text.data "$" {} v0 rest fl0 hpv
    simp only [hpv] at h
    simp only [hperm]
    by_cases hws : (skipWs rest).isEmpty = true
    · simp only [if_pos hws, Except.ok.injEq, Prod.mk.injEq] at h ⊢
      obtain ⟨rfl, rfl⟩ := h
      exact ⟨⟨rfl, rfl⟩, by simpa using hpy, by simpa using htr⟩
    · rw [if_neg hws] at h
      exact Except.noConfusion h

theorem loadsJsonishEx_strict_perm (text : String) (v : Value) (md : Metadata)
    (h : loadsJsonishEx strictParseConfig text = .ok (v, md)) :
    loadsJsonishEx {} text = .ok (v, md)
      ∧ md.replacedPythonLiterals = false ∧ md.droppedTrailingCommas = false := by
  simp only [loadsJsonishEx] at h ⊢
  rcases hef : extractForLoad text with ⟨cand, ff⟩
  simp only [hef] at h ⊢
  cases hpj : parseJsonish strictParseConfig cand with
  | error e => simp only [hpj] at h; exact Except.noConfusion h
  | ok p =>
    obtain ⟨v0, fl0⟩ := p
    obtain ⟨hperm, hpy, htr⟩ := parseJsonish_strict_perm cand v0 fl0 hpj
    simp only [hpj, Except.ok.injEq, Prod.mk.injEq] at h
    obtain ⟨rfl, rfl⟩ := h
    simp only [hperm]
    exact ⟨rfl, hpy, htr⟩

/-- C8.  Metadata flags are set exactly for the relaxations actually
applied, not those merely permitted by configuration: (i) every input
that already parses under the fully strict config parses identically
under the fully permissive default config, with replacedPythonLiterals
and droppedTrailingCommas false; (ii) conversely a set flag certifies a
relaxation was genuinely applied: the strict grammar rejects the input;
(iii) extractedFromFence is true exactly when fence extraction was
actually applied to the input; (iv) the claim's example: the fenced
"\x7b 'a': True,\x7d" parsed with single quotes allowed sets all three
flags true. -/
theorem metadata_flags_exact :
    (∀ (text : String) (v : Value) (md : Metadata),
        loadsJsonishEx strictParseConfig text = .ok (v, md) →
        loadsJsonishEx {} text = .ok (v, md)
          ∧ md.replacedPythonLiterals = false ∧ md.droppedTrailingCommas = false)
    ∧ (∀ (text : String) (v : Value) (md : Metadata),
        loadsJsonishEx {} text = .ok (v, md) →
        md.replacedPythonLiterals = true ∨ md.droppedTrailingCommas = true →
        ∀ (v2 : Value) (md2 : Metadata),
          loadsJsonishEx strictParseConfig text ≠ .ok (v2, md2))
    ∧ (∀ (cfg : RepairConfig) (text : String) (v : Value) (md : Metadata),
        loadsJsonishEx cfg text = .ok (v, md) →
        md.extractedFromFence = (extractFence text.data).isSome)
    ∧ loadsJsonishEx {} ("\x60\x60\x60json\n\x7b 'a': True,\x7d\n\x60\x60\x60")
      = .ok (.vobj [("a", .vbool true)],
             { extractedFromFence := true, replacedPythonLiterals := true,
               droppedTrailingCommas := true, duplicateKeyCount := 0,
               duplicateKeyPolicy := .firstWins }) := by
  refine ⟨fun text v md h => loadsJsonishEx_strict_perm text v md h, ?_, ?_, by decide⟩
  · intro text v md hperm hflag v2 md2 hstrict
    obtain ⟨hp2, hf2, ht2⟩ := loadsJsonishEx_strict_perm text v2 md2 hstrict
    rw [hperm] at hp2
    simp only [Except.ok.injEq, Prod.mk.injEq] at hp2
    obtain ⟨rfl, rfl⟩ := hp2
    rcases hflag with hflag | hflag
    · rw [hflag] at hf2; exact Bool.noConfusion hf2
    · rw [hflag] at ht2; exact Bool.noConfusion ht2
  · intro cfg text v md h
    simp only [loadsJsonishEx, extractForLoad] at h
    cases hf : extractFence text.data with
    | some p =>
      obtain ⟨pos, fc, fr⟩ := p
      simp only [hf] at h
      cases hpj : parseJsonish cfg (String.mk (trimChars fc)) with
      | error e => simp only [hpj] at h; exact Except.noConfusion h
      | ok q =>
        obtain ⟨v0, fl0⟩ := q
        simp only [hpj, Except.ok.injEq, Prod.mk.injEq] at h
        obtain ⟨rfl, rfl⟩ := h
        simp [hf]
    | none =>
      simp only [hf] at h
      cases hb : extractBalancedFrom text.data with
      | some p =>
        obtain ⟨pos, bc, br⟩ := p
        simp only [hb] at h
        cases hpj : parseJsonish cfg (String.mk (trimChars bc)) with
        | error e => simp only [hpj] at h; exact Except.noConfusion h
        | ok q =>
          obtain ⟨v0, fl0⟩ := q
          simp only [hpj, Except.ok.injEq, Prod.mk.injEq] at h
          obtain ⟨rfl, rfl⟩ := h
          simp [hf]
      | none =>
        simp only [hb] at h
        cases hpj : parseJsonish cfg text with
        | error e => simp only [hpj] at h; exact Except.noConfusion h
        | ok q =>
          obtain ⟨v0, fl0⟩ := q
          simp only [hpj, Except.ok.injEq, Prod.mk.injEq] at h
          obtain ⟨rfl, rfl⟩ := h
          simp [hf]

theorem metadata_flags_exact_witness :
    loadsJsonishEx {} "[1, 2]"
      = .ok (.varr [.vint 1, .vint 2],
             { extractedFromFence := false, replacedPythonLiterals := false,
               droppedTrailingCommas := false, duplicateKeyCount := 0,
               duplicateKeyPolicy := .firstWins })
    ∧ ({ extractedFromFence := false, replacedPythonLiterals := false,
         droppedTrailingCommas := false, duplicateKeyCount := 0,
         duplicateKeyPolicy := .firstWins } : Metadata).replacedPythonLiterals = false
    ∧ ({ extractedFromFence := false, replacedPythonLiterals := false,
         droppedTrailingCommas := false, duplicateKeyCount := 0,
         duplicateKeyPolicy := .firstWins } : Metadata).droppedTrailingCommas = false :=
  metadata_flags_exact.1 "[1, 2]" (.varr [.vint 1, .vint 2])
    { extractedFromFence := false, replacedPythonLiterals := false,
      droppedTrailingCommas := false, duplicateKeyCount := 0,
      duplicateKeyPolicy := .firstWins } (by decide)

/-- C1.  Stream limit fails closed: on a live session, an append that
keeps the buffer within maxBufferBytes (boundary: length == N) is
accepted; an append that would exceed it (length N+1 or more) rejects
the bytes, caches the terminal limit error, accepts no further bytes,
and poll() returns done = true, ok = false with an error whose path is
"$.stream.maxBufferBytes" and whose limit payload is
\x7bkind:"maxBufferBytes", max:N\x7d. -/
theorem stream_limit_fail_closed (st : StreamState) (chunk : String) (sch : Schema)
    (hlive : st.limitErr = none) :
    (st.buffer.length + chunk.length ≤ st.maxBufferBytes →
        (st.append chunk).buffer = st.buffer ++ chunk
        ∧ (st.append chunk).limitErr = none)
    ∧ (st.buffer.length + chunk.length > st.maxBufferBytes →
        (st.append chunk).buffer = st.buffer
        ∧ (∀ chunk2, (st.append chunk).append chunk2 = st.append chunk)
        ∧ pollJson sch (st.append chunk)
            = { done := true, ok := false, value := none,
                error := some (limitVError st.maxBufferBytes) }
        ∧ (limitVError st.maxBufferBytes).path = "$.stream.maxBufferBytes"
        ∧ (limitVError st.maxBufferBytes).limit
            = some { kind := "maxBufferBytes", max := st.maxBufferBytes }) := by
  constructor
  · intro hle
    have hnotgt : ¬(st.buffer.length + chunk.length > st.maxBufferBytes) := by omega
    simp [StreamState.append, hlive, hnotgt]
  · intro hgt
    refine ⟨?_, ?_, ?_, rfl, rfl⟩
    · simp [StreamState.append, hlive, hgt]
    · intro chunk2
      simp [StreamState.append, hlive, hgt]
    · simp [StreamState.append, hlive, hgt, pollJson]

/-- C1 witness: a fresh session with maxBufferBytes = 8 receiving the
10-byte chunk "0123456789". -/
theorem stream_limit_fail_closed_witness :
    pollJson Schema.empty ((mkStream 8).append "0123456789")
      = { done := true, ok := false, value := none, error := some (limitVError 8) } :=
  ((stream_limit_fail_closed (mkStream 8) "0123456789" Schema.empty rfl).2
    (by decide)).2.2.1

theorem repairStep_unfix_cases (cfg : VRepairConfig) (sch : Schema)
    (st : Value × List RepairSuggestion × List VError) (e : CError) :
    (repairStep cfg sch st e).2.2 = st.2.2
    ∨ (repairStep cfg sch st e).2.2 = st.2.2 ++ [renderCError "$" e] := by
  unfold repairStep
  cases h : fixOutcome cfg sch st.1 st.2.1.length e <;> simp [h]

theorem repair_fold_unfix (cfg : VRepairConfig) (sch : Schema) :
    ∀ (es : List CError) (acc : Value × List RepairSuggestion × List VError)
      (target : List VError),
      (∀ x ∈ acc.2.2, x ∈ target) →
      (∀ e ∈ es, renderCError "$" e ∈ target) →
      ∀ x ∈ (es.foldl (repairStep cfg sch) acc).2.2, x ∈ target := by
  intro es
  induction es with
  | nil => intro acc target hacc _ x hx; exact hacc x hx
  | cons e t ih =>
    intro acc target hacc hes x hx
    rw [List.foldl_cons] at hx
    refine ih (repairStep cfg sch acc e) target ?_
      (fun e2 he2 => hes e2 (List.mem_cons_of_mem _ he2)) x hx
    intro y hy
    rcases repairStep_unfix_cases cfg sch acc e with hcase | hcase
    · exact hacc y (hcase ▸ hy)
    · rw [hcase] at hy
      rcases List.mem_append.mp hy with h1 | h2
      · exact hacc y h1
      · rw [List.mem_singleton.mp h2]
        exact hes e (List.mem_cons_self _ _)

/-- C3.  validate_with_repair is a total function into RepairResult (it
never raises; all outcomes are data) whose record reports: valid exactly
when the original value has no violations, fully_repaired exactly when
the repaired value has none, and every unfixable error is one of the
original validation errors, returned as data. -/
theorem validate_with_repair_total (v : Value) (sch : Schema) (cfg : VRepairConfig) :
    (validateWithRepair v sch cfg).valid = (validateAll sch v "$").isEmpty
    ∧ (validateWithRepair v sch cfg).fully_repaired
        = (validateAll sch (validateWithRepair v sch cfg).repaired_value "$").isEmpty
    ∧ ∀ e ∈ (validateWithRepair v sch cfg).unfixable_errors, e ∈ validateAll sch v "$" := by
  have hmap : ∀ l : List CError, l.isEmpty = (l.map (renderCError "$")).isEmpty := by
    intro l; cases l <;> rfl
  refine ⟨?_, ?_, ?_⟩
  · simp only [validateWithRepair, validateAll]
    exact hmap _
  · simp only [validateWithRepair, validateAll]
    exact hmap _
  · intro e he
    have := repair_fold_unfix cfg sch (checkValue sch v) (v, [], [])
      ((checkValue sch v).map (renderCError "$"))
      (by intro x hx; simp at hx)
      (by intro e2 he2; exact List.mem_map_of_mem _ he2)
      e he
    simpa [validateAll] using this

/-- C3 witness: a string value against the integer schema with no repair
flags enabled; the type error is returned as data in
unfixable_errors. -/
theorem validate_with_repair_total_witness :
    ({ kind := "type", path := "$", message := "expected type integer" } : VError)
      ∈ validateAll intSchema (Value.vstr "x") "$" :=
  (validate_with_repair_total (Value.vstr "x") intSchema {}).2.2 _ (by decide)

theorem prefix01_clash : ∀ s1 s2 : String, ("$[0]" ++ s1) ≠ ("$[1]" ++ s2) := by
  intro s1 s2 h
  have hd := congrArg String.data h
  rw [String.data_append, String.data_append] at hd
  have h0 : ("$[0]" : String).data = [ '$', '[', '0', ']' ] := rfl
  have h1 : ("$[1]" : String).data = [ '$', '[', '1', ']' ] := rfl
  rw [h0, h1] at hd
  simp only [List.cons_append, List.nil_append, List.cons.injEq] at hd
  exact absurd hd.2.2.1 (by decide)

/-- C7 (amended).  For a batch text whose extraction yields exactly two
candidates, both parsing to objects, where only the first violates the
schema: the surfaced first error's path is prefixed "$[0]" (indexing the
first item) and not "$[1]", and every indexed batch error is prefixed
"$[0]" and none "$[1]".  (When the violation lies inside a property the
prefix extends to "$[0]."; a root-level violation of item 0, e.g. an
enum mismatch, carries the exact path "$[0]".) -/
theorem batch_error_paths_indexed
    (text : String) (sch : Schema) (c1 c2 : String)
    (f1 f2 : List (String × Value)) (fl1 fl2 : PFlags)
    (hc : extractCandidates text = [c1, c2])
    (hp1 : parseJsonish {} c1 = .ok (.vobj f1, fl1))
    (hp2 : parseJsonish {} c2 = .ok (.vobj f2, fl2))
    (hv1 : checkValue sch (.vobj f1) ≠ [])
    (hv2 : checkValue sch (.vobj f2) = []) :
    (∃ e, parseAndValidateJsonAll text sch = .error e
        ∧ (∃ suf, e.path = "$[0]" ++ suf)
        ∧ ¬ (∃ suf, e.path = "$[1]" ++ suf))
    ∧ ∀ e2 ∈ indexedErrors sch [.vobj f1, .vobj f2] 0,
        (∃ suf, e2.path = "$[0]" ++ suf) ∧ ¬ (∃ suf, e2.path = "$[1]" ++ suf) := by
  have hpath0 : ("$[" ++ toString (0 : Nat) ++ "]" : String) = "$[0]" := rfl
  have hpath1 : ("$[" ++ toString (1 : Nat) ++ "]" : String) = "$[1]" := rfl
  have hidx : indexedErrors sch [.vobj f1, .vobj f2] 0
      = (checkValue sch (.vobj f1)).map (renderCError "$[0]") := by
    simp [indexedErrors, validateAll, hv2, hpath0, hpath1]
  constructor
  · cases hcv : checkValue sch (.vobj f1) with
    | nil => exact absurd hcv hv1
    | cons e0 rest =>
      refine ⟨renderCError "$[0]" e0, ?_, ⟨renderSegs e0.segs, rfl⟩, ?_⟩
      · simp only [parseAndValidateJsonAll, hc, parseCands, hp1, hp2]
        rw [show indexedErrors sch [Value.vobj f1, Value.vobj f2] 0
            = (checkValue sch (.vobj f1)).map (renderCError "$[0]") from hidx, hcv]
        rfl
      · rintro ⟨s2, h2⟩
        exact prefix01_clash (renderSegs e0.segs) s2 h2
  · intro e2 he2
    rw [hidx] at he2
    obtain ⟨e0, _, rfl⟩ := List.mem_map.mp he2
    refine ⟨⟨renderSegs e0.segs, rfl⟩, ?_⟩
    rintro ⟨s2, h2⟩
    exact prefix01_clash (renderSegs e0.segs) s2 h2

/-- C7 counterexample to the claim as stated: with the object-enum
schema, the text "\x7b"a": 2\x7d \x7b"a": 1\x7d" has two top-level
objects of which only the first violates the schema, yet the reported
error's path is exactly "$[0]" and is not prefixed "$[0].". -/
theorem batch_error_paths_counterexample :
    parseAndValidateJsonAll ("\x7b\x22a\x22: 2\x7d \x7b\x22a\x22: 1\x7d") c7xSchema
      = .error { kind := "enum", path := "$[0]", message := "value not in enum" }
    ∧ String.isPrefixOf "$[0]." "$[0]" = false := by
  refine ⟨by decide, by decide⟩

/-- C7 witness at the concrete text "\x7b"a": "x"\x7d \x7b"a": 2\x7d"
with the required-integer schema. -/
theorem batch_error_paths_indexed_witness :
    (∃ e, parseAndValidateJsonAll ("\x7b\x22a\x22: \x22x\x22\x7d \x7b\x22a\x22: 2\x7d") c7Schema
        = .error e
        ∧ (∃ suf, e.path = "$[0]" ++ suf)
        ∧ ¬ (∃ suf, e.path = "$[1]" ++ suf))
    ∧ ∀ e2 ∈ indexedErrors c7Schema
        [.vobj [("a", Value.vstr "x")], .vobj [("a", Value.vint 2)]] 0,
        (∃ suf, e2.path = "$[0]" ++ suf) ∧ ¬ (∃ suf, e2.path = "$[1]" ++ suf) :=
  batch_error_paths_indexed ("\x7b\x22a\x22: \x22x\x22\x7d \x7b\x22a\x22: 2\x7d") c7Schema
    ("\x7b\x22a\x22: \x22x\x22\x7d") ("\x7b\x22a\x22: 2\x7d")
    [("a", Value.vstr "x")] [("a", Value.vint 2)] {} {}
    (by decide) rfl rfl (by decide) (by decide)

/-- C10.  Exception normalization at the Python boundary:
extract_json_candidate turns every underlying failure (including the
native NotFound) into ValueError and otherwise returns the stripped
candidate; loads_jsonish re-raises ValidationError (kind and path
preserved) unchanged and converts every other failure into
ValueError(str(exc)); no other exception type escapes either entry
point. -/
theorem wrapper_exception_normalization :
    (∀ e : PyExc, extract_json_candidate_py (.error e) = .error (.valueError (pyStr e)))
    ∧ (∀ text : String, extractCandidate text = none →
        extract_json_candidate text
          = .error (.valueError "no JSON candidate found in text"))
    ∧ (∀ k p m : String, loads_jsonish_py (.error (.validationError k p m))
        = .error (.validationError k p m))
    ∧ (∀ e : PyExc, (∀ k p m, e ≠ .validationError k p m) →
        loads_jsonish_py (.error e) = .error (.valueError (pyStr e)))
    ∧ (∀ (r : Except PyExc Value) (e2 : PyExc), loads_jsonish_py r = .error e2 →
        (∃ k p m, e2 = .validationError k p m) ∨ (∃ m, e2 = .valueError m))
    ∧ (∀ (r : Except PyExc String) (e2 : PyExc), extract_json_candidate_py r = .error e2 →
        ∃ m, e2 = .valueError m) := by
  refine ⟨fun e => rfl, ?_, fun k p m => rfl, ?_, ?_, ?_⟩
  · intro text hnone
    simp [extract_json_candidate, nativeExtractJson, hnone, extract_json_candidate_py, pyStr]
  · intro e he
    cases e with
    | validationError k p m => exact absurd rfl (he k p m)
    | valueError m => rfl
    | otherExc n m => rfl
  · intro r e2 h
    cases r with
    | ok v => exact absurd h (by simp [loads_jsonish_py])
    | error e =>
      cases e with
      | validationError k p m =>
        simp [loads_jsonish_py] at h
        exact Or.inl ⟨k, p, m, h.symm⟩
      | valueError m =>
        simp [loads_jsonish_py] at h
        exact Or.inr ⟨pyStr (.valueError m), h.symm⟩
      | otherExc n m =>
        simp [loads_jsonish_py] at h
        exact Or.inr ⟨pyStr (.otherExc n m), h.symm⟩
  · intro r e2 h
    cases r with
    | ok s => exact absurd h (by simp [extract_json_candidate_py])
    | error e =>
      simp [extract_json_candidate_py] at h
      exact ⟨pyStr e, h.symm⟩

/-- C10 witness: the inputs "no json here" (no candidate anywhere) and a
TypeError-like native failure. -/
theorem wrapper_exception_normalization_witness :
    extract_json_candidate "no json here"
      = .error (.valueError "no JSON candidate found in text")
    ∧ loads_jsonish_py (.error (.otherExc "TypeError" "boom"))
      = .error (.valueError "boom") :=
  ⟨wrapper_exception_normalization.2.1 "no json here" (by decide),
   wrapper_exception_normalization.2.2.2.1 (.otherExc "TypeError" "boom")
     (by intro k p m h; exact PyExc.noConfusion h)⟩

theorem noDupKeys_iff : ∀ l : List String, noDupKeys l = true ↔ l.Nodup := by
  intro l
  induction l with
  | nil => simp [noDupKeys]
  | cons k ks ih =>
    simp only [noDupKeys, Bool.and_eq_true, Bool.not_eq_true', List.nodup_cons, ih]
    constructor
    · rintro ⟨h1, h2⟩
      exact ⟨fun hm => by simp [List.contains] at h1; exact h1 hm, h2⟩
    · rintro ⟨h1, h2⟩
      refine ⟨?_, h2⟩
      by_contra hc
      simp only [Bool.not_eq_false] at hc
      exact h1 (List.elem_iff.mp hc)

theorem buildObject_nodup (fs : List (String × Value))
    (h : (fs.map Prod.fst).Nodup) :
    buildObject .firstWins "$" fs = .ok (fs, 0) := by
  have := foldlM_buildObject_go .firstWins "$" fs [] 0 h (fun k _ => rfl)
  simpa [buildObject] using this

theorem parseToksVal_arrEnter (f : Nat) (e : Value) (es' : List Value) (X : List Tok) :
    parseToksVal (f + 1) (.tlk :: (dumpArrToks (e :: es') ++ .trk :: X))
      = parseToksArr f (dumpArrToks (e :: es') ++ .trk :: X) [] := by
  cases es' <;> cases e <;> simp [parseToksVal, dumpArrToks, dumpToks]

mutual
theorem rt_val : ∀ (v : Value) (rest : List Tok) (fuel : Nat),
    wellFormedV v = true → vfuel v ≤ fuel →
    parseToksVal fuel (dumpToks v ++ rest) = .ok (v, rest)
  | .vnull, rest, fuel, _, hf => by
      cases fuel with
      | zero => simp [vfuel] at hf
      | succ f => simp [dumpToks, parseToksVal]
  | .vbool b, rest, fuel, _, hf => by
      cases fuel with
      | zero => simp [vfuel] at hf
      | succ f => simp [dumpToks, parseToksVal]
  | .vint n, rest, fuel, _, hf => by
      cases fuel with
      | zero => simp [vfuel] at hf
      | succ f => simp [dumpToks, parseToksVal]
  | .vfloat q, rest, fuel, _, hf => by
      cases fuel with
      | zero => simp [vfuel] at hf
      | succ f => simp [dumpToks, parseToksVal]
  | .vstr s, rest, fuel, _, hf => by
      cases fuel with
      | zero => simp [vfuel] at hf
      | succ f => simp [dumpToks, parseToksVal]
  | .varr es, rest, fuel, hwf, hf => by
      cases fuel with
      | zero => simp [vfuel] at hf
      | succ f =>
        cases es with
        | nil => simp [dumpToks, dumpArrToks, parseToksVal]
        | cons e es' =>
          have hlist : dumpToks (Value.varr (e :: es')) ++ rest
              = .tlk :: (dumpArrToks (e :: es') ++ .trk :: rest) := by
            simp [dumpToks]
          rw [hlist, parseToksVal_arrEnter]
          have h1 : wellFormedL (e :: es') = true := by
            simpa [wellFormedV] using hwf
          have h2 : lfuel (e :: es') ≤ f := by
            simp only [vfuel] at hf; omega
          have := rt_arr (e :: es') [] rest f (by simp) h1 h2
          simpa using this
  | .vobj fs, rest, fuel, hwf, hf => by
      cases fuel with
      | zero => simp [vfuel] at hf
      | succ f =>
        cases fs with
        | nil =>
          simp [dumpToks, dumpObjToks, parseToksVal, buildObject, pure, Except.pure]
        | cons kv fs' =>
          obtain ⟨k, v0⟩ := kv
          have hwf2 : noDupKeys (((k, v0) :: fs').map Prod.fst) = true
              ∧ wellFormedF ((k, v0) :: fs') = true := by
            simpa [wellFormedV] using hwf
          have hnd : ((([] : List (String × Value)) ++ (k, v0) :: fs').map Prod.fst).Nodup := by
            simpa using (noDupKeys_iff _).mp hwf2.1
          have h2 : ffuel ((k, v0) :: fs') ≤ f := by
            simp only [vfuel] at hf; omega
          have hobj := rt_obj ((k, v0) :: fs') [] rest f (by simp) hwf2.2 hnd h2
          have hlist2 : dumpToks (Value.vobj ((k, v0) :: fs')) ++ rest
              = .tlb :: (dumpObjToks ((k, v0) :: fs') ++ .trb :: rest) := by
            simp [dumpToks]
          rw [hlist2]
          have henter : parseToksVal (f + 1)
              (.tlb :: (dumpObjToks ((k, v0) :: fs') ++ .trb :: rest))
              = parseToksObj f (dumpObjToks ((k, v0) :: fs') ++ .trb :: rest) [] := by
            cases fs' <;> simp [parseToksVal, dumpObjToks]
          rw [henter, hobj]
          simp

theorem rt_arr : ∀ (es : List Value) (acc : List Value) (rest : List Tok) (fuel : Nat),
    es ≠ [] → wellFormedL es = true → lfuel es ≤ fuel →
    parseToksArr fuel (dumpArrToks es ++ .trk :: rest) acc = .ok (.varr (acc ++ es), rest)
  | [], _, _, _, hne, _, _ => absurd rfl hne
  | e :: es', acc, rest, fuel, _, hwf, hf => by
      have hwfe : wellFormedV e = true ∧ wellFormedL es' = true := by
        simpa [wellFormedL] using hwf
      cases fuel with
      | zero => simp only [lfuel] at hf; omega
      | succ f =>
        cases es' with
        | nil =>
          have hv := rt_val e (.trk :: rest) f hwfe.1 (by simp only [lfuel] at hf; omega)
          simp only [dumpArrToks, parseToksArr]
          rw [hv]
        | cons e2 es'' =>
          have hv := rt_val e (.tcomma :: (dumpArrToks (e2 :: es'') ++ .trk :: rest)) f
            hwfe.1 (by simp only [lfuel] at hf; omega)
          have hrec := rt_arr (e2 :: es'') (acc ++ [e]) rest f (by simp) hwfe.2
            (by simp only [lfuel] at hf ⊢; omega)
          have hlist : dumpArrToks (e :: e2 :: es'') ++ .trk :: rest
              = dumpToks e ++ (.tcomma :: (dumpArrToks (e2 :: es'') ++ .trk :: rest)) := by
            simp [dumpArrToks]
          simp only [parseToksArr, hlist]
          rw [hv]
          simp only []
          rw [hrec]
          simp

theorem rt_obj : ∀ (fs pairs : List (String × Value)) (rest : List Tok) (fuel : Nat),
    fs ≠ [] → wellFormedF fs = true →
    ((pairs ++ fs).map Prod.fst).Nodup → ffuel fs ≤ fuel →
    parseToksObj fuel (dumpObjToks fs ++ .trb :: rest) pairs = .ok (.vobj (pairs ++ fs), rest)
  | [], _, _, _, hne, _, _, _ => absurd rfl hne
  | (k, v0) :: fs', pairs, rest, fuel, _, hwf, hnd, hf => by
      have hwfv : wellFormedV v0 = true ∧ wellFormedF fs' = true := by
        simpa [wellFormedF] using hwf
      cases fuel with
      | zero => simp only [ffuel] at hf; omega
      | succ f =>
        cases fs' with
        | nil =>
          have hv := rt_val v0 (.trb :: rest) f hwfv.1 (by simp only [ffuel] at hf; omega)
          have hbo : buildObject .firstWins "$" (pairs ++ [(k, v0)])
              = .ok (pairs ++ [(k, v0)], 0) := by
            apply buildObject_nodup
            simpa using hnd
          have hlist : dumpObjToks [(k, v0)] ++ .trb :: rest
              = .tstr k :: .tcolon :: (dumpToks v0 ++ .trb :: rest) := by
            simp [dumpObjToks]
          rw [hlist]
          simp only [parseToksObj]
          rw [hv]
          simp [hbo]
        | cons kv2 fs'' =>
          obtain ⟨k2, v2⟩ := kv2
          have hv := rt_val v0
            (.tcomma :: (dumpObjToks ((k2, v2) :: fs'') ++ .trb :: rest)) f
            hwfv.1 (by simp only [ffuel] at hf; omega)
          have hnd2 : (((pairs ++ [(k, v0)]) ++ (k2, v2) :: fs'').map Prod.fst).Nodup := by
            simpa [List.append_assoc] using hnd
          have hrec := rt_obj ((k2, v2) :: fs'') (pairs ++ [(k, v0)]) rest f (by simp)
            hwfv.2 hnd2 (by simp only [ffuel] at hf ⊢; omega)
          have hlist : dumpObjToks ((k, v0) :: (k2, v2) :: fs'') ++ .trb :: rest
              = .tstr k :: .tcolon ::
                  (dumpToks v0 ++ (.tcomma :: (dumpObjToks ((k2, v2) :: fs'') ++ .trb :: rest))) := by
            simp [dumpObjToks]
          rw [hlist]
          simp only [parseToksObj]
          rw [hv]
          simp only []
          rw [hrec]
          simp
end

/-- C9.  Round-trip idempotence at the token level: for every
well-formed Value (each object carries pairwise-distinct keys, as values
produced from strict input do, since firstWins resolution stores each key
once), re-parsing the serialized token stream yields the same Value with
no tokens left over. -/
theorem dumps_loads_idempotent (v : Value) (h : wellFormedV v = true) :
    parseToksVal (vfuel v) (dumpToks v) = .ok (v, []) := by
  have := rt_val v [] (vfuel v) h (Nat.le_refl _)
  simpa using this

/-- C9 witness: a nested object/array value. -/
theorem dumps_loads_idempotent_witness :
    parseToksVal (vfuel (Value.vobj [("a", .vint 1), ("b", .varr [.vnull, .vstr "x"])]))
        (dumpToks (Value.vobj [("a", .vint 1), ("b", .varr [.vnull, .vstr "x"])]))
      = .ok (Value.vobj [("a", .vint 1), ("b", .varr [.vnull, .vstr "x"])], []) :=
  dumps_loads_idempotent (Value.vobj [("a", .vint 1), ("b", .varr [.vnull, .vstr "x"])])
    (by decide)

theorem lookup_isSome_of_mem {l : List (String × Value)} {k : String}
    (h : k ∈ l.map Prod.fst) : (l.lookup k).isSome := by
  induction l with
  | nil => simp at h
  | cons kv t ih =>
    obtain ⟨k1, v1⟩ := kv
    rw [List.lookup_cons]
    by_cases he : k = k1
    · simp [he]
    · have hb : (k == k1) = false := by simp [he]
      simp only [hb]
      apply ih
      simp only [List.map_cons, List.mem_cons] at h
      rcases h with h | h
      · exact absurd h he
      · exact h

/-- The firstWins duplicate-key resolution always produces an object
whose keys are pairwise distinct, connecting parser output to the
well-formedness hypothesis of the round-trip theorem. -/
theorem buildObject_keys_nodup (path : String) :
    ∀ (pairs acc : List (String × Value)) (n : Nat) (fields : List (String × Value)) (m : Nat),
      (acc.map Prod.fst).Nodup →
      pairs.foldlM (buildObjectStep .firstWins path) (acc, n) = .ok (fields, m) →
      (fields.map Prod.fst).Nodup := by
  intro pairs
  induction pairs with
  | nil =>
    intro acc n fields m hnd h
    simp only [List.foldlM_nil] at h
    cases h
    exact hnd
  | cons kv t ih =>
    intro acc n fields m hnd h
    obtain ⟨k, v⟩ := kv
    rw [List.foldlM_cons] at h
    by_cases hk : (acc.lookup k).isSome
    · have hstep : buildObjectStep .firstWins path (acc, n) (k, v) = .ok (acc, n + 1) := by
        simp [buildObjectStep, hk]
      rw [hstep] at h
      exact ih acc (n + 1) fields m hnd h
    · have hstep : buildObjectStep .firstWins path (acc, n) (k, v)
          = .ok (acc ++ [(k, v)], n) := by
        simp [buildObjectStep, hk]
      rw [hstep] at h
      refine ih (acc ++ [(k, v)]) n fields m ?_ h
      have hknotin : k ∉ acc.map Prod.fst := by
        intro hmem
        exact hk (lookup_isSome_of_mem hmem)
      rw [show (acc ++ [(k, v)]).map Prod.fst = acc.map Prod.fst ++ [k] by simp]
      rw [List.nodup_append]
      exact ⟨hnd, by simp,
        by intro a ha hmem; rw [List.mem_singleton] at hmem; exact hknotin (hmem ▸ ha)⟩
